import Mathlib

/-!
# cse3150lab4: balanced symbol sequences

A shallow embedding of `src/prefix.hpp`, `src/balance.hpp` and `src/lab4.cpp`.

* A `symbols` object (`std::vector<int8_t>`) is a `List Int` whose entries are `int8_t`
  values; iterators are positions (`Nat`).
* Narrowing a promoted `int` result back to a `w`-bit signed accumulator is `wrap w`
  (two's complement, modulo `2^w`).
* Calls whose behaviour the C++ standard leaves undefined (an iterator moved past the
  end, `size() - 1` on an empty vector, an element read out of range, a signed overflow of
  an `int`) return `none`.
* The random generator is an oracle: `uniform a` and `binomial a` are the values the
  two distributions return when the scramble loop asks for a draw with parameter `a`.
* The frequency table is a list of key and count pairs with the insert and lookup
  behaviour of `std::unordered_map`; an insertion hashes its key; the order in which the
  entries are visited is a parameter.
* A `double` is an IEEE 754 binary64 value and every operation rounds to nearest, ties
  to even.
-/

set_option maxRecDepth 100000

namespace Lab4

/-! ## Definitions -/

/-- Conversion of a mathematical integer to a `bits`-wide signed machine integer
(two's complement wrap-around): the value stored by `acc = acc + x` when `acc` has a
type narrower than the promoted sum. -/
def wrap (bits : Nat) (x : Int) : Int :=
  (x + 2 ^ (bits - 1)) % 2 ^ bits - 2 ^ (bits - 1)

/-- Constructor `symbols(size_t n)` of `balance.hpp`: `n` ones followed by `n+1`
minus-ones. -/
def symbols (n : Nat) : List Int :=
  List.replicate n 1 ++ List.replicate (n + 1) (-1)

/-- Body of the `while` loop of `std::partial_sum` instantiated at
`vector<int8_t>::const_iterator`: the accumulator `value` has the iterator's value type
(`int8_t`), so each new sum is narrowed to 8 bits before it is written out. -/
def partial_sum_loop (value : Int) : List Int → List Int
  | [] => []
  | x :: rest => wrap 8 (value + x) :: partial_sum_loop (wrap 8 (value + x)) rest

/-- Call `std::partial_sum(cbegin(), cend(), std::back_inserter(sums))` in
`lowest_valley` and `hilo`: the list of running sums, one per element. The output
vector holds `int`, the accumulator is an `int8_t`. -/
def partial_sum : List Int → List Int
  | [] => []
  | x :: rest => x :: partial_sum_loop x rest

/-- Loop of `std::min_element`: `i` is the position under inspection, `sv` and `si` the
value and position of the smallest element seen so far; a later element replaces it
only when strictly smaller. -/
def min_element_loop : List Int → Nat → Int → Nat → Nat
  | [], _, _, si => si
  | x :: rest, i, sv, si =>
    if x < sv then min_element_loop rest (i + 1) x i
    else min_element_loop rest (i + 1) sv si

/-- Position returned by `std::min_element(sums.cbegin(), sums.cend())`, as a distance
from `cbegin()` (for an empty range it returns `last`, distance `0`). -/
def min_element : List Int → Nat
  | [] => 0
  | x :: rest => min_element_loop rest 1 x 0

/-- Method `symbols::lowest_valley`, as the distance of the returned iterator from
`cbegin()`. -/
def lowest_valley (s : List Int) : Nat :=
  min_element (partial_sum s)

/-- Method `symbols::cut_and_splice`: `p2(i + 1, cend())` followed by
`insert(p2.end(), cbegin(), i)`. On an empty vector `i + 1` lies past the end, which
is undefined: `none`. -/
def cut_and_splice (s : List Int) : Option (List Int) :=
  if s.length = 0 then none
  else some (s.drop (lowest_valley s + 1) ++ s.take (lowest_valley s))

/-- Loop of `non_neg_prefix_sum` for an element type of `bits` bits: `sum += i`, then
`return false` as soon as `sum < 0`. -/
def non_neg_loop (bits : Nat) (sum : Int) : List Int → Bool
  | [] => true
  | i :: rest =>
    if wrap bits (sum + i) < 0 then false
    else non_neg_loop bits (wrap bits (sum + i)) rest

/-- Function template `non_neg_prefix_sum` of `prefix.hpp` at an element type
of `bits` bits (`Int sum = 0`, the accumulator has the element type). -/
def non_neg_prefix_sum (bits : Nat) (r : List Int) : Bool :=
  non_neg_loop bits 0 r

/-- Loop of `non_pos_prefix_sum`: `sum += i`, then `return false` as soon as
`sum > 0`. -/
def non_pos_loop (bits : Nat) (sum : Int) : List Int → Bool
  | [] => true
  | i :: rest =>
    if wrap bits (sum + i) > 0 then false
    else non_pos_loop bits (wrap bits (sum + i)) rest

/-- Function template `non_pos_prefix_sum` of `prefix.hpp` at an element type
of `bits` bits. -/
def non_pos_prefix_sum (bits : Nat) (r : List Int) : Bool :=
  non_pos_loop bits 0 r

/-- Method `symbols::is_balanced`: `non_neg_prefix_sum(*this)`, whose element type is
`int8_t`. -/
def is_balanced (s : List Int) : Bool :=
  non_neg_prefix_sum 8 s

/-- Call `std::swap(v[i], v[j])` on a vector: the two elements change places. An
access out of range is undefined in the source: `none`. -/
def swap {α : Type} (s : List α) (i j : Nat) : Option (List α) :=
  match s[i]?, s[j]? with
  | some a, some b => some ((s.set i b).set j a)
  | _, _ => none

/-- Lambda `dist` of `symbols::scramble`: a uniform draw on `[0, a]`, or a binomial
draw with parameters `(a, 0.5)` when `bias` is set. -/
def dist (bias : Bool) (uniform binomial : Nat → Nat) (a : Nat) : Nat :=
  if !bias then uniform a else binomial a

/-- Loop `for (size_t i = size() - 1; i > 0; --i)` of `symbols::scramble`, started
at `i`, with the lambda `dist` it calls as a parameter: `n = dist(i, rd)`, then
`std::swap((*this)[i], (*this)[n])`. The loop never looks at the values it moves, so it
is stated for any element type. -/
def scramble_loop {α : Type} (draw : Nat → Nat) : Nat → List α → Option (List α)
  | 0, s => some s
  | i + 1, s => (swap s (i + 1) (draw (i + 1))).bind (scramble_loop draw i)

/-- Method `symbols::scramble(bool bias)`. On an empty vector `size() - 1` wraps around
to the largest `size_t` and the first swap is out of range: `none`. -/
def scramble {α : Type} (bias : Bool) (uniform binomial : Nat → Nat) (s : List α) :
    Option (List α) :=
  if s.length = 0 then none
  else scramble_loop (dist bias uniform binomial) (s.length - 1) s

/-! ### The hash of a sequence -/

/-- Private method `symbols::to_string`: one character per symbol, `'1'` for a `1` and
`'0'` for anything else. -/
def to_string (s : List Int) : String :=
  String.mk (s.map (fun (x : Int) => if x = 1 then '1' else '0'))

/-- The `for` loop of `symbols::to_bits` with `passes` passes left, at index `i`:
`bits |= (*this)[i] == 1 ? 1 : 0; bits <<= 1;` on a `size_t` (64 bits). Reading a
position out of range is undefined: `none`. The result is the index and the bits at
loop exit. -/
def to_bits_loop (s : List Int) : Nat → Nat → Nat → Option (Nat × Nat)
  | 0, i, bits => some (i, bits)
  | passes + 1, i, bits =>
    match s[i]? with
    | none => none
    | some x =>
      to_bits_loop s passes (i + 1) (((bits ||| (if x = 1 then 1 else 0)) <<< 1) % 2 ^ 64)

/-- Private method `symbols::to_bits`: the loop runs for `i = 0` while
`i < size() - 1`, a subtraction on `size_t` (adding `2^64 - 1` modulo `2^64`), and the
last statement reads `(*this)[i]` once more. -/
def to_bits (s : List Int) : Option Nat :=
  match to_bits_loop s ((2 ^ 64 - 1 + s.length) % 2 ^ 64) 0 0 with
  | none => none
  | some (i, bits) =>
    match s[i]? with
    | none => none
    | some x => some (bits ||| (if x = 1 then 1 else 0))

/-- Specialisation `std::hash<symbols>::operator()`: the library hash of `to_string`
when `size() > sizeof(size_t) * 8`, of `to_bits` otherwise. The two library hashes are
parameters. -/
def symbols_hash (hash_string : String → Nat) (hash_size : Nat → Nat) (s : List Int) :
    Option Nat :=
  if s.length > 8 * 8 then some (hash_string (to_string s))
  else (to_bits s).map hash_size

/-- Value of a sequence read as a binary number, first symbol first: the bit of a
symbol is `1` for a `1` and `0` otherwise. -/
def binary_value (acc : Nat) : List Int → Nat
  | [] => acc
  | x :: rest => binary_value (2 * acc + (if x = 1 then 1 else 0)) rest

/-! ### The frequency table -/

/-- Frequency table `std::unordered_map<symbols, int>`, modelled by the contract of the
container: the entries as key and count pairs; keys are compared with `operator==` of
the vector, element by element. Counts are `int` values (32 bits). -/
abbrev Table := List (List Int × Int)

/-- Count stored under key `s` (`table.find(s)->second`), if the key is present. -/
def Table.count (t : Table) (s : List Int) : Option Int :=
  match t with
  | [] => none
  | (k, v) :: rest => if k = s then some v else Table.count rest s

/-- Keys of the table. -/
def Table.keys (t : Table) : List (List Int) :=
  t.map Prod.fst

/-- Addition of two `int` values: a sum outside the range of a 32-bit `int` is a signed
overflow, which is undefined: `none`. -/
def int_add (a b : Int) : Option Int :=
  if -2 ^ 31 ≤ a + b ∧ a + b < 2 ^ 31 then some (a + b) else none

/-- Call `table.insert({s, v})`. The container first computes the hash of the key
(`hash` is `std::hash<symbols>`), so the call is undefined when the hash is. When the
key is present nothing is inserted and the flag is `false`; otherwise the pair is added
and the flag is `true`. -/
def Table.insert (hash : List Int → Option Nat) (t : Table) (s : List Int) (v : Int) :
    Option (Table × Bool) :=
  match hash s with
  | none => none
  | some _ =>
    match Table.count t s with
    | some _ => some (t, false)
    | none => some ((s, v) :: t, true)

/-- Statement `v += 1` through the iterator `kv` that `insert` returned for key `s`, an
addition on `int`. -/
def Table.increment : Table → List Int → Option Table
  | [], _ => some []
  | (k, v) :: rest, s =>
    if k = s then (int_add v 1).map (fun (v1 : Int) => (k, v1) :: rest)
    else (Table.increment rest s).map (fun (r : Table) => (k, v) :: r)

/-- Second lambda of `run_iteration` (`lab4.cpp`, lines 61 to 67), applied to one
sequence: `auto [kv, ins] = table.insert({s, 1}); if (!ins) v += 1;`. -/
def table_fold (hash : List Int → Option Nat) (t : Table) (s : List Int) : Option Table :=
  match Table.insert hash t s 1 with
  | none => none
  | some (t1, ins) => if !ins then Table.increment t1 s else some t1

/-- Second `for_each` of `run_iteration`: the lambda is applied to each sequence in
turn. -/
def table_fold_all (hash : List Int → Option Nat) : Table → List (List Int) → Option Table
  | t, [] => some t
  | t, s :: rest =>
    match table_fold hash t s with
    | none => none
    | some t1 => table_fold_all hash t1 rest

/-- Order in which a range-based loop visits the entries of the table. The order of a
`std::unordered_map` is unspecified: `pick` selects one of the permutations of the
entries. -/
def Table.iterate (pick : Nat) (t : Table) : Table :=
  (List.permutations t).getD pick t

/-- Call `std::accumulate(first, last, init)` with an `int` accumulator. -/
def accumulate_int (init : Int) : List Int → Option Int
  | [] => some init
  | v :: rest =>
    match int_add init v with
    | none => none
    | some acc => accumulate_int acc rest

/-- Test data of `prefix.cpp`, "handles long input": `data.push_back(n[i % 2])` for
`i` from `0` to `len - 1`, with `n = {first, second}`. -/
def alternating (first second : Int) (len : Nat) : List Int :=
  (List.range len).map (fun i => if i % 2 = 0 then first else second)

/-- Sum of the first `k` elements over the mathematical integers. -/
def prefix_total (s : List Int) (k : Nat) : Int :=
  (s.take k).sum

/-- Every running sum of the sequence, taken over the mathematical integers, is
representable in a signed accumulator of `bits` bits. -/
def NoOverflow (bits : Nat) (r : List Int) : Prop :=
  ∀ k, k ≤ r.length → -(2 : Int) ^ (bits - 1) ≤ prefix_total r k ∧ prefix_total r k < 2 ^ (bits - 1)

instance (bits : Nat) (r : List Int) : Decidable (NoOverflow bits r) := by
  unfold NoOverflow
  infer_instance

/-! ### Doubles, the standard deviation and the convergence loop

A `double` is an IEEE 754 binary64 value: `Dbl.fin x` is a finite value, given by the
rational number `x` it stands for, `Dbl.pinf`, `Dbl.ninf` and `Dbl.nan` are the two
infinities and the not-a-number. Every arithmetic operation computes the exact result
and rounds it to the nearest double, a tie going to the double with an even significand
(`round64`); a result of `2^1024` or more after rounding is an infinity. The sign of a
zero is not represented: the only divisions by zero in the program have a divisor
converted from an unsigned size or from an `int`, which is the positive zero. -/

/-- Values of type `double`. -/
inductive Dbl where
  | fin (x : ℚ)
  | pinf
  | ninf
  | nan
  deriving DecidableEq

/-- Loop that counts how often `n` can be halved before it drops below `2`. -/
def log2_loop : Nat → Nat → Nat
  | 0, _ => 0
  | fuel + 1, n => if 2 ≤ n then log2_loop fuel (n / 2) + 1 else 0

/-- Position of the leading bit of a positive natural number: the `k` with
`2^k ≤ n < 2^(k+1)`. -/
def log2 (n : Nat) : Nat :=
  log2_loop n n

/-- The power of two `2^e` as a rational number. -/
def pow2 (e : Int) : ℚ :=
  if 0 ≤ e then ((2 ^ e.toNat : Nat) : ℚ) else 1 / ((2 ^ (-e).toNat : Nat) : ℚ)

/-- Binary exponent of a non-zero rational number `x`: the `e` with
`2^e ≤ |x| < 2^(e+1)`. -/
def ilog2 (x : ℚ) : Int :=
  let e : Int := (log2 x.num.natAbs : Int) - (log2 x.den : Int)
  if pow2 e ≤ |x| then e else e - 1

/-- Nearest integer, a tie going to the even one. -/
def round_half_even (k : ℚ) : Int :=
  let f := ⌊k⌋
  if k - f < 1 / 2 then f
  else if 1 / 2 < k - f then f + 1
  else if f % 2 = 0 then f else f + 1

/-- Distance between neighbouring doubles around `x`: `2^(e-52)` for the binary
exponent `e` of `x`, and `2^(-1074)` below `2^(-1022)` (subnormal range). -/
def ulp (x : ℚ) : ℚ :=
  pow2 (max (ilog2 x) (-1022) - 52)

/-- Multiple of `ulp x` nearest to `x`, a tie going to the even multiple. -/
def nearest (x : ℚ) : ℚ :=
  (round_half_even (x / ulp x) : ℚ) * ulp x

/-- Rounding of an exact result to a `double` (round to nearest, ties to even): the
nearest double, or an infinity when that is `2^1024` or more in magnitude. -/
def round64 (x : ℚ) : Dbl :=
  if pow2 1024 ≤ nearest x then Dbl.pinf
  else if nearest x ≤ -pow2 1024 then Dbl.ninf
  else Dbl.fin (nearest x)

/-- Conversion of an integer value (`int`, `size_t`) to `double`. -/
def Dbl.of_int (n : Int) : Dbl :=
  round64 (n : ℚ)

/-- Operator `+` on doubles. -/
def Dbl.add : Dbl → Dbl → Dbl
  | Dbl.fin a, Dbl.fin b => round64 (a + b)
  | Dbl.nan, _ => Dbl.nan
  | _, Dbl.nan => Dbl.nan
  | Dbl.pinf, Dbl.ninf => Dbl.nan
  | Dbl.ninf, Dbl.pinf => Dbl.nan
  | Dbl.pinf, _ => Dbl.pinf
  | _, Dbl.pinf => Dbl.pinf
  | Dbl.ninf, _ => Dbl.ninf
  | _, Dbl.ninf => Dbl.ninf

/-- Unary minus on doubles. -/
def Dbl.neg : Dbl → Dbl
  | Dbl.fin a => Dbl.fin (-a)
  | Dbl.pinf => Dbl.ninf
  | Dbl.ninf => Dbl.pinf
  | Dbl.nan => Dbl.nan

/-- Operator `-` on doubles. -/
def Dbl.sub (a b : Dbl) : Dbl :=
  Dbl.add a (Dbl.neg b)

/-- Operator `*` on doubles. -/
def Dbl.mul : Dbl → Dbl → Dbl
  | Dbl.fin a, Dbl.fin b => round64 (a * b)
  | Dbl.nan, _ => Dbl.nan
  | _, Dbl.nan => Dbl.nan
  | Dbl.fin a, Dbl.pinf => if a = 0 then Dbl.nan else if 0 < a then Dbl.pinf else Dbl.ninf
  | Dbl.fin a, Dbl.ninf => if a = 0 then Dbl.nan else if 0 < a then Dbl.ninf else Dbl.pinf
  | Dbl.pinf, Dbl.fin b => if b = 0 then Dbl.nan else if 0 < b then Dbl.pinf else Dbl.ninf
  | Dbl.ninf, Dbl.fin b => if b = 0 then Dbl.nan else if 0 < b then Dbl.ninf else Dbl.pinf
  | Dbl.pinf, Dbl.pinf => Dbl.pinf
  | Dbl.ninf, Dbl.ninf => Dbl.pinf
  | Dbl.pinf, Dbl.ninf => Dbl.ninf
  | Dbl.ninf, Dbl.pinf => Dbl.ninf

/-- Operator `/` on doubles; a zero divisor is the positive zero obtained from an
unsigned size or from an `int`. -/
def Dbl.div : Dbl → Dbl → Dbl
  | Dbl.fin a, Dbl.fin b =>
    if b = 0 then (if a = 0 then Dbl.nan else if 0 < a then Dbl.pinf else Dbl.ninf)
    else round64 (a / b)
  | Dbl.nan, _ => Dbl.nan
  | _, Dbl.nan => Dbl.nan
  | Dbl.fin _, Dbl.pinf => Dbl.fin 0
  | Dbl.fin _, Dbl.ninf => Dbl.fin 0
  | Dbl.pinf, Dbl.fin b => if 0 ≤ b then Dbl.pinf else Dbl.ninf
  | Dbl.ninf, Dbl.fin b => if 0 ≤ b then Dbl.ninf else Dbl.pinf
  | Dbl.pinf, Dbl.pinf => Dbl.nan
  | Dbl.pinf, Dbl.ninf => Dbl.nan
  | Dbl.ninf, Dbl.pinf => Dbl.nan
  | Dbl.ninf, Dbl.ninf => Dbl.nan

/-- Whether the square of `x` is exact in `double`: for a finite `x`, whether the square
is a double. -/
def Dbl.square_exact : Dbl → Bool
  | Dbl.fin a => decide (round64 (a * a) = Dbl.fin (a * a))
  | _ => true

/-- Call `std::pow(x, 2)`. When the square of a finite `x` is a double, the result is that
square: a library whose error is below one unit in the last place can return nothing
else, and neither can the product `x * x` that a compiler may emit for this call.
Otherwise the accuracy is the library's own: `inexact a` is the double it returns for the
finite argument `a`. -/
def Dbl.pow_two (inexact : ℚ → Dbl) : Dbl → Dbl
  | Dbl.fin a => if round64 (a * a) = Dbl.fin (a * a) then Dbl.fin (a * a) else inexact a
  | Dbl.pinf => Dbl.pinf
  | Dbl.ninf => Dbl.pinf
  | Dbl.nan => Dbl.nan

/-- Search for the largest `r` with `r * r ≤ n`, one bit at a time from bit `b - 1`
down to bit `0`. -/
def isqrt_loop (n : Nat) : Nat → Nat → Nat
  | 0, r => r
  | b + 1, r =>
    if (r + 2 ^ b) * (r + 2 ^ b) ≤ n then isqrt_loop n b (r + 2 ^ b) else isqrt_loop n b r

/-- Integer square root: the largest `r` with `r * r ≤ n`. -/
def isqrt (n : Nat) : Nat :=
  isqrt_loop n (log2 n / 2 + 1) 0

/-- Square root of a positive value, rounded once. The exponent `k` makes `4^k * a` at
least `2^128`, and `s` is the integer part of its square root, at least `2^64`. The
exact root is `s / 2^k` when `s * s` is that number; otherwise it lies strictly between
`s / 2^k` and `(s + 1) / 2^k`, where it rounds like their midpoint because no double and
no midpoint of two doubles lies between them. -/
def sqrt_pos (a : ℚ) : Dbl :=
  let k : Int := 64 - ilog2 a / 2
  let scaled : ℚ := a * pow2 (2 * k)
  let s : Nat := isqrt ⌊scaled⌋.toNat
  if ((s * s : Nat) : ℚ) = scaled then round64 ((s : ℚ) / pow2 k)
  else round64 ((2 * (s : ℚ) + 1) / pow2 (k + 1))

/-- Function `std::sqrt`: the correctly rounded square root; zero for zero,
not-a-number for a negative or not-a-number argument. -/
def Dbl.sqrt : Dbl → Dbl
  | Dbl.fin a => if a = 0 then Dbl.fin 0 else if a < 0 then Dbl.nan else sqrt_pos a
  | Dbl.pinf => Dbl.pinf
  | Dbl.ninf => Dbl.nan
  | Dbl.nan => Dbl.nan

/-- Comparison `a > b` on doubles: `false` whenever an operand is not a number. -/
def Dbl.gt : Dbl → Dbl → Bool
  | Dbl.fin a, Dbl.fin b => decide (b < a)
  | Dbl.nan, _ => false
  | _, Dbl.nan => false
  | Dbl.pinf, Dbl.pinf => false
  | Dbl.pinf, _ => true
  | _, Dbl.pinf => false
  | Dbl.ninf, _ => false
  | Dbl.fin _, Dbl.ninf => true

/-- Conversion `double(n)` of the elements of an integral range. -/
def to_doubles (l : List Int) : List Dbl :=
  l.map Dbl.of_int

/-- Call `std::accumulate(first, last, 0.0)` on doubles. -/
def accumulate (l : List Dbl) : Dbl :=
  l.foldl Dbl.add (Dbl.fin 0)

/-- Function `variance` of `lab4.cpp`: the mean is the sum divided by `lst.size()`, the
squared differences are `std::pow(double(n) - mean, 2)`, and their sum is divided by
`sqdiffs.size() - 1`, a subtraction on `size_t` (adding `2^64 - 1` modulo `2^64`).
`inexact` gives the results of `std::pow` that are not exact. -/
def variance (inexact : ℚ → Dbl) (lst : List Dbl) : Dbl :=
  let mean := Dbl.div (accumulate lst) (Dbl.of_int (lst.length : Int))
  let sqdiffs := lst.map (fun (n : Dbl) => Dbl.pow_two inexact (Dbl.sub n mean))
  Dbl.div (accumulate sqdiffs)
    (Dbl.of_int (((2 ^ 64 - 1 + sqdiffs.length) % 2 ^ 64 : Nat) : Int))

/-- Function `stddev` of `lab4.cpp`: `std::sqrt(variance(lst))`. -/
def stddev (inexact : ℚ → Dbl) (lst : List Dbl) : Dbl :=
  Dbl.sqrt (variance inexact lst)

/-- Static method `symbols::generate_n`: `nsyms` copies of `symbols(n)`. -/
def generate_n (n nsyms : Nat) : List (List Int) :=
  List.replicate nsyms (symbols n)

/-- First `for_each` of `run_iteration`, from the symbol at position `j` on:
`s.scramble(bias); s.cut_and_splice();` for each symbol in turn. `uniform j` and
`binomial j` are the draws made while the symbol at position `j` is scrambled. -/
def balance_all (bias : Bool) (uniform binomial : Nat → Nat → Nat) :
    Nat → List (List Int) → Option (List (List Int))
  | _, [] => some []
  | j, s :: rest =>
    match (scramble bias (uniform j) (binomial j) s).bind cut_and_splice with
    | none => none
    | some b => (balance_all bias uniform binomial (j + 1) rest).map (fun bs => b :: bs)

/-- Sum of all counts over the integers (`total_count` of the specification). -/
def Table.total (t : Table) : Int :=
  (t.map Prod.snd).foldl (fun acc v => acc + v) 0

/-- Member `table.size()`: the number of entries. -/
def Table.size (t : Table) : Nat :=
  t.length

/-- Function `run_iteration` of `lab4.cpp`. The two library hashes are parameters, as
are the inexact results of `std::pow`, the draws and the order `pick` in which the table
is visited. `nsyms` is
`std::accumulate(vals.begin(), vals.end(), 0)`, each frequency is `v / double(nsyms)`.
The result carries the table as the call leaves it, after the pair that the source
returns. -/
def run_iteration (hash_string : String → Nat) (hash_size : Nat → Nat) (inexact : ℚ → Dbl)
    (pick : Nat) (uniform binomial : Nat → Nat → Nat) (table : Table) (n ns : Nat)
    (bias : Bool) :
    Option ((Dbl × Int) × Table) :=
  match balance_all bias uniform binomial 0 (generate_n n ns) with
  | none => none
  | some syms =>
    match table_fold_all (symbols_hash hash_string hash_size) table syms with
    | none => none
    | some table1 =>
      match accumulate_int 0 ((Table.iterate pick table1).map Prod.snd) with
      | none => none
      | some nsyms =>
        let freqs := ((Table.iterate pick table1).map Prod.snd).map
          (fun (v : Int) => Dbl.div (Dbl.of_int v) (Dbl.of_int nsyms))
        some ((stddev inexact freqs, nsyms), table1)

/-- Acceptance threshold `eps * (1.0 / table.size())` of `run_to_convergence`. -/
def threshold (eps : Dbl) (table : Table) : Dbl :=
  Dbl.mul eps (Dbl.div (Dbl.fin 1) (Dbl.of_int (Table.size table : Int)))

/-- How a call of `run_to_convergence` ends: it returns the pair, or it throws
`std::runtime_error("maximum iterations")`. -/
inductive Outcome where
  | returned (sdev : Dbl) (nsyms : Int)
  | thrown
  deriving DecidableEq

/-- End of a run: the outcome, the table as the run leaves it, and the number of calls
of `run_iteration` that were made. -/
structure Run where
  outcome : Outcome
  table : Table
  calls : Nat
  deriving DecidableEq

/-- The `do ... while` loop of `run_to_convergence`, entered with the table, the
counter `iters` and the number of calls made so far. `pick c`, `uniform c` and
`binomial c` are the visiting order and the draws of call number `c`. Each pass calls
`run_iteration`, does `++iters`, then tests `++iters > max_iters`, and repeats while
`sdev > eps * (1.0 / table.size()) || iters < n * 2`. The first argument bounds the
number of passes. -/
def convergence_loop (hash_string : String → Nat) (hash_size : Nat → Nat)
    (inexact : ℚ → Dbl) (pick : Nat → Nat) (uniform binomial : Nat → Nat → Nat → Nat)
    (n ns : Nat) (eps : Dbl) (max_iters : Nat) (bias : Bool) :
    Nat → Table → Nat → Nat → Option Run
  | 0, _, _, _ => none
  | fuel + 1, table, iters, calls =>
    match run_iteration hash_string hash_size inexact (pick calls) (uniform calls)
      (binomial calls) table n ns bias with
    | none => none
    | some ((sdev, nsyms), table1) =>
      if iters + 1 + 1 > max_iters then
        some ⟨Outcome.thrown, table1, calls + 1⟩
      else if Dbl.gt sdev (threshold eps table1) || decide (iters + 1 + 1 < n * 2) then
        convergence_loop hash_string hash_size inexact pick uniform binomial n ns eps
          max_iters bias fuel table1 (iters + 1 + 1) (calls + 1)
      else
        some ⟨Outcome.returned sdev nsyms, table1, calls + 1⟩

/-- Function `run_to_convergence` of `lab4.cpp`, with `iters = 0` at entry. The loop
makes at most `max_iters / 2 + 1` passes, so `max_iters + 1` passes are allowed; the
result is `none` only when a call of `run_iteration` is undefined. -/
def run_to_convergence (hash_string : String → Nat) (hash_size : Nat → Nat)
    (inexact : ℚ → Dbl) (pick : Nat → Nat) (uniform binomial : Nat → Nat → Nat → Nat)
    (table : Table) (n ns : Nat) (eps : Dbl) (max_iters : Nat) (bias : Bool) : Option Run :=
  convergence_loop hash_string hash_size inexact pick uniform binomial n ns eps max_iters
    bias (max_iters + 1) table 0 0

/-- Values of `n`, `nsyms`, `maxi` and `eps` with which `main` runs. -/
structure Settings where
  n : Nat
  nsyms : Nat
  maxi : Nat
  eps : Dbl
  deriving DecidableEq

/-- Argument parsing of `main` (`lab4.cpp`, lines 206 to 232). `stoul` and `stod` are
the two library parsers, `none` when they throw; `argv` holds the program name and the
arguments, `argc` is its length. The default of `eps` is the literal `0.1`, the double
nearest to one tenth. The result is the settings, or the exit status `1` of the `catch`
block. -/
def parse_args (stoul : String → Option Nat) (stod : String → Option Dbl)
    (argv : List String) : Except Nat Settings :=
  let argc := argv.length
  let nsyms0 : Nat := 1 <<< 16
  let n0 : Nat := 4
  let eps0 : Dbl := round64 (1 / 10)
  let maxi0 : Nat := 1 <<< 10
  match (if argc > 1 then stoul (argv.getD 1 "") else some n0) with
  | none => Except.error 1
  | some n =>
    match (if argc > 2 then stoul (argv.getD 2 "") else some nsyms0) with
    | none => Except.error 1
    | some nsyms =>
      match (if argc > 3 then stoul (argv.getD 3 "") else some maxi0) with
      | none => Except.error 1
      | some maxi =>
        match (if argc > 4 then stod (argv.getD 3 "") else some eps0) with
        | none => Except.error 1
        | some eps =>
          if argc > 5 then Except.error 1
          else Except.ok ⟨n, nsyms, maxi, eps⟩

/-- Draws for the examples: the draw of step `i` is `i` itself (the symbol stays as it
is), except that the symbol at position `1` of each batch draws `1` at step `2` (its
elements at positions `1` and `2` change places). -/
def example_draws : Nat → Nat → Nat → Nat :=
  fun _ j i => if j = 1 ∧ i = 2 then 1 else i

theorem two_pow_split (bits : Nat) (hb : 0 < bits) :
    (2 : Int) ^ bits = 2 ^ (bits - 1) + 2 ^ (bits - 1) := by
  obtain ⟨k, rfl⟩ : ∃ k, bits = k + 1 := ⟨bits - 1, by omega⟩
  simp [pow_succ]
  ring

/-- A value that fits the accumulator is stored unchanged. -/
theorem wrap_of_fits (bits : Nat) (hb : 0 < bits) (x : Int)
    (h1 : -(2 : Int) ^ (bits - 1) ≤ x) (h2 : x < 2 ^ (bits - 1)) : wrap bits x = x := by
  unfold wrap
  rw [two_pow_split bits hb]
  generalize (2 : Int) ^ (bits - 1) = h at h1 h2 ⊢
  rw [Int.emod_eq_of_lt (by omega) (by omega)]
  omega

/-- Narrowing an intermediate sum does not change the narrowed final sum. -/
theorem wrap_add_wrap (bits : Nat) (a b : Int) :
    wrap bits (wrap bits a + b) = wrap bits (a + b) := by
  unfold wrap
  have h : (a + 2 ^ (bits - 1)) % 2 ^ bits - 2 ^ (bits - 1) + b + 2 ^ (bits - 1)
      = (a + 2 ^ (bits - 1)) % 2 ^ bits + b := by ring
  rw [h, Int.emod_add_emod]
  congr 2
  ring

/-- Subtraction `size() - 1` on `size_t` for a non-empty container that fits `size_t`:
it does not wrap. -/
theorem size_minus_one (len : Nat) (h1 : 1 ≤ len) (h2 : len < 2 ^ 64) :
    (2 ^ 64 - 1 + len) % 2 ^ 64 = len - 1 := by
  have h : 2 ^ 64 - 1 + len = (len - 1) + 2 ^ 64 := by omega
  rw [h, Nat.add_mod_right, Nat.mod_eq_of_lt (by omega)]

/-! ### Running sums over the integers -/

theorem prefix_total_zero (s : List Int) : prefix_total s 0 = 0 := by
  simp [prefix_total]

theorem prefix_total_cons (x : Int) (s : List Int) (k : Nat) :
    prefix_total (x :: s) (k + 1) = x + prefix_total s k := by
  simp [prefix_total]

theorem prefix_total_succ (s : List Int) (k : Nat) (h : k < s.length) :
    prefix_total s (k + 1) = prefix_total s k + s[k] := by
  unfold prefix_total
  exact List.sum_take_succ s k h

theorem prefix_total_length (s : List Int) : prefix_total s s.length = s.sum := by
  simp [prefix_total]

/-! ### What `std::partial_sum` and `std::min_element` compute -/

theorem partial_sum_loop_length (value : Int) (s : List Int) :
    (partial_sum_loop value s).length = s.length := by
  induction s generalizing value with
  | nil => rfl
  | cons x rest ih => simp [partial_sum_loop, ih]

theorem partial_sum_length (s : List Int) : (partial_sum s).length = s.length := by
  cases s with
  | nil => rfl
  | cons x rest => simp [partial_sum, partial_sum_loop_length]

theorem partial_sum_loop_getElem? (value : Int) (s : List Int) (j : Nat) (hj : j < s.length) :
    (partial_sum_loop value s)[j]? = some (wrap 8 (value + prefix_total s (j + 1))) := by
  induction s generalizing value j with
  | nil => simp at hj
  | cons x rest ih =>
    cases j with
    | zero => simp [partial_sum_loop, prefix_total]
    | succ j =>
      have hj2 : j < rest.length := by simpa using hj
      simp only [partial_sum_loop, List.getElem?_cons_succ]
      rw [ih _ j hj2, wrap_add_wrap, prefix_total_cons]
      congr 2
      ring

/-- The `j`-th running sum written by `std::partial_sum` is the integer sum of the
first `j + 1` symbols narrowed to `int8_t` (the first symbol is copied as it is). -/
theorem partial_sum_getElem? (s : List Int) (j : Nat) (hj : j < s.length)
    (hhead : ∀ x ∈ s.head?, wrap 8 x = x) :
    (partial_sum s)[j]? = some (wrap 8 (prefix_total s (j + 1))) := by
  cases s with
  | nil => simp at hj
  | cons x rest =>
    cases j with
    | zero => simp [partial_sum, prefix_total, hhead x (by simp)]
    | succ j =>
      have hj2 : j < rest.length := by simpa using hj
      simp only [partial_sum, List.getElem?_cons_succ]
      rw [partial_sum_loop_getElem? _ _ j hj2, prefix_total_cons]

theorem min_element_loop_spec (rest pre : List Int) (sv : Int) (si : Nat)
    (hsv : pre[si]? = some sv)
    (hmin : ∀ (j : Nat) (v : Int), pre[j]? = some v → sv ≤ v)
    (hfirst : ∀ (j : Nat) (v : Int), j < si → pre[j]? = some v → sv < v) :
    ∃ m, (pre ++ rest)[min_element_loop rest pre.length sv si]? = some m ∧
      (∀ (j : Nat) (v : Int), (pre ++ rest)[j]? = some v → m ≤ v) ∧
      (∀ (j : Nat) (v : Int), j < min_element_loop rest pre.length sv si → (pre ++ rest)[j]? = some v → m < v) := by
  induction rest generalizing pre sv si with
  | nil =>
    refine ⟨sv, ?_, ?_, ?_⟩
    · simpa [min_element_loop] using hsv
    · simpa using hmin
    · simpa [min_element_loop] using hfirst
  | cons x rest ih =>
    have hsi : si < pre.length := by
      by_contra hc
      rw [List.getElem?_eq_none (by omega)] at hsv
      cases hsv
    have hsplit : ∀ (j : Nat) (v : Int), (pre ++ [x])[j]? = some v → pre[j]? = some v ∨ (j = pre.length ∧ v = x) := by
      intro j v hv
      rcases Nat.lt_or_ge j pre.length with h | h
      · left
        rwa [List.getElem?_append_left h] at hv
      · right
        rw [List.getElem?_append_right h] at hv
        rcases Nat.eq_zero_or_pos (j - pre.length) with h0 | h0
        · rw [h0] at hv
          simp at hv
          exact ⟨by omega, hv.symm⟩
        · obtain ⟨k, hk⟩ : ∃ k, j - pre.length = k + 1 := ⟨j - pre.length - 1, by omega⟩
          rw [hk] at hv
          simp at hv
    have hlen : (pre ++ [x]).length = pre.length + 1 := by simp
    have happ : pre ++ x :: rest = (pre ++ [x]) ++ rest := by simp
    have hin : ∀ (j : Nat) (v : Int), pre[j]? = some v → j < pre.length := by
      intro j v hv
      by_contra hc
      rw [List.getElem?_eq_none (by omega)] at hv
      cases hv
    rw [happ]
    simp only [min_element_loop]
    split
    · rename_i hlt
      have := ih (pre ++ [x]) x pre.length (by simp)
        (by
          intro j v hv
          rcases hsplit j v hv with h | ⟨_, h⟩
          · exact le_of_lt (lt_of_lt_of_le hlt (hmin j v h))
          · exact le_of_eq h.symm)
        (by
          intro j v hj hv
          rcases hsplit j v hv with h | ⟨h, _⟩
          · exact lt_of_lt_of_le hlt (hmin j v h)
          · omega)
      rwa [hlen] at this
    · rename_i hge
      have := ih (pre ++ [x]) sv si
        (by rw [List.getElem?_append_left hsi]; exact hsv)
        (by
          intro j v hv
          rcases hsplit j v hv with h | ⟨_, h⟩
          · exact hmin j v h
          · rw [h]; exact not_lt.mp hge)
        (by
          intro j v hj hv
          rcases hsplit j v hv with h | ⟨h, _⟩
          · exact hfirst j v hj h
          · omega)
      rwa [hlen] at this

/-- On a non-empty range `std::min_element` returns the position of the first
smallest element. -/
theorem min_element_spec (l : List Int) (hl : l ≠ []) :
    ∃ m, l[min_element l]? = some m ∧ (∀ (j : Nat) (v : Int), l[j]? = some v → m ≤ v) ∧
      (∀ (j : Nat) (v : Int), j < min_element l → l[j]? = some v → m < v) := by
  cases l with
  | nil => exact absurd rfl hl
  | cons x rest =>
    have := min_element_loop_spec rest [x] x 0 (by simp)
      (by
        intro j v hv
        cases j with
        | zero => simp at hv; exact le_of_eq hv
        | succ j => simp at hv)
      (by intro j v hj; omega)
    simpa [min_element] using this

theorem min_element_lt (l : List Int) (hl : l ≠ []) : min_element l < l.length := by
  obtain ⟨m, hm, _, _⟩ := min_element_spec l hl
  by_contra hc
  rw [List.getElem?_eq_none (by omega)] at hm
  cases hm

theorem lowest_valley_lt (s : List Int) (hs : s ≠ []) : lowest_valley s < s.length := by
  have hne : partial_sum s ≠ [] := by
    intro h
    have := congrArg List.length h
    rw [partial_sum_length] at this
    exact hs (List.length_eq_zero.mp this)
  have := min_element_lt (partial_sum s) hne
  rwa [partial_sum_length] at this


/-- What `lowest_valley` returns in general: the first position at which the running
sum, narrowed to `int8_t`, is smallest. -/
theorem lowest_valley_wrapped (s : List Int) (hs : s ≠ [])
    (hhead : ∀ x ∈ s.head?, wrap 8 x = x) :
    lowest_valley s < s.length ∧
    (∀ j, j < s.length →
      wrap 8 (prefix_total s (lowest_valley s + 1)) ≤ wrap 8 (prefix_total s (j + 1))) ∧
    (∀ j, j < lowest_valley s →
      wrap 8 (prefix_total s (lowest_valley s + 1)) < wrap 8 (prefix_total s (j + 1))) := by
  have hlt := lowest_valley_lt s hs
  have hne : partial_sum s ≠ [] := by
    intro h
    have := congrArg List.length h
    rw [partial_sum_length] at this
    exact hs (List.length_eq_zero.mp this)
  obtain ⟨m, hm, hmin, hfirst⟩ := min_element_spec (partial_sum s) hne
  have hm2 := partial_sum_getElem? s (lowest_valley s) hlt hhead
  have hmeq : m = wrap 8 (prefix_total s (lowest_valley s + 1)) := by
    unfold lowest_valley at hm2
    rw [hm] at hm2
    exact Option.some.inj hm2
  refine ⟨hlt, ?_, ?_⟩
  · intro j hj
    rw [← hmeq]
    exact hmin j _ (partial_sum_getElem? s j hj hhead)
  · intro j hj
    rw [← hmeq]
    exact hfirst j _ hj (partial_sum_getElem? s j (by omega) hhead)

theorem noOverflow_fits (bits : Nat) (hb : 0 < bits) (r : List Int) (h : NoOverflow bits r)
    (k : Nat) : wrap bits (prefix_total r k) = prefix_total r k := by
  rcases Nat.le_total k r.length with hk | hk
  · exact wrap_of_fits bits hb _ (h k hk).1 (h k hk).2
  · have : prefix_total r k = prefix_total r r.length := by
      unfold prefix_total
      rw [List.take_of_length_le hk, List.take_of_length_le (le_refl _)]
    rw [this]
    exact wrap_of_fits bits hb _ (h _ (le_refl _)).1 (h _ (le_refl _)).2

theorem noOverflow_head (r : List Int) (h : NoOverflow 8 r) :
    ∀ x ∈ r.head?, wrap 8 x = x := by
  intro x hx
  cases r with
  | nil => simp at hx
  | cons y rest =>
    simp at hx
    subst hx
    have := noOverflow_fits 8 (by decide) (y :: rest) h 1
    simpa [prefix_total] using this

/-- While no running sum leaves the `int8_t` range, `lowest_valley` returns the first
position of the smallest integer running sum. -/
theorem lowest_valley_of_fits (s : List Int) (hs : s ≠ []) (hfit : NoOverflow 8 s) :
    lowest_valley s < s.length ∧
    (∀ j, j < s.length → prefix_total s (lowest_valley s + 1) ≤ prefix_total s (j + 1)) ∧
    (∀ j, j < lowest_valley s → prefix_total s (lowest_valley s + 1) < prefix_total s (j + 1)) := by
  obtain ⟨h1, h2, h3⟩ := lowest_valley_wrapped s hs (noOverflow_head s hfit)
  refine ⟨h1, ?_, ?_⟩
  · intro j hj
    have := h2 j hj
    rwa [noOverflow_fits 8 (by decide) s hfit, noOverflow_fits 8 (by decide) s hfit] at this
  · intro j hj
    have := h3 j hj
    rwa [noOverflow_fits 8 (by decide) s hfit, noOverflow_fits 8 (by decide) s hfit] at this

/-! ### The rotation -/

theorem prefix_total_drop (s : List Int) (a k : Nat) :
    (List.take k (List.drop a s)).sum = prefix_total s (a + k) - prefix_total s a := by
  unfold prefix_total
  rw [List.take_add, List.sum_append]
  ring

theorem prefix_total_of_length_le (s : List Int) (k : Nat) (h : s.length ≤ k) :
    prefix_total s k = s.sum := by
  unfold prefix_total
  rw [List.take_of_length_le h]

theorem prefix_total_rotation (s : List Int) (i k : Nat) :
    prefix_total (s.drop (i + 1) ++ s.take i) k =
      prefix_total s (i + 1 + k) - prefix_total s (i + 1)
        + prefix_total s (min (k - (s.length - (i + 1))) i) := by
  unfold prefix_total
  rw [List.take_append_eq_append_take, List.sum_append, List.take_take, List.length_drop]
  have := prefix_total_drop s (i + 1) k
  unfold prefix_total at this
  rw [this]

theorem cut_and_splice_eq (s : List Int) (hs : s ≠ []) :
    cut_and_splice s = some (s.drop (lowest_valley s + 1) ++ s.take (lowest_valley s)) := by
  have hlen : s.length ≠ 0 := fun h => hs (List.length_eq_zero.mp h)
  simp [cut_and_splice, hlen]

theorem valley_facts (s : List Int) (hs : s ≠ []) (hfit : NoOverflow 8 s) (hsum : s.sum = -1) :
    prefix_total s (lowest_valley s + 1) ≤ -1 ∧
    (∀ x, 1 ≤ x → prefix_total s (lowest_valley s + 1) ≤ prefix_total s x) ∧
    (∀ x, x ≤ lowest_valley s → prefix_total s (lowest_valley s + 1) < prefix_total s x) := by
  obtain ⟨hlt, hmin, hfirst⟩ := lowest_valley_of_fits s hs hfit
  have hlen : s.length ≠ 0 := fun h => hs (List.length_eq_zero.mp h)
  have hm_le : prefix_total s (lowest_valley s + 1) ≤ -1 := by
    have := hmin (s.length - 1) (by omega)
    rw [show s.length - 1 + 1 = s.length by omega, prefix_total_length, hsum] at this
    exact this
  refine ⟨hm_le, ?_, ?_⟩
  · intro x hx
    rcases Nat.lt_or_ge s.length x with h | h
    · rw [prefix_total_of_length_le s x (by omega), hsum]
      exact hm_le
    · have := hmin (x - 1) (by omega)
      rwa [show x - 1 + 1 = x by omega] at this
  · intro x hx
    rcases Nat.eq_zero_or_pos x with h | h
    · rw [h, prefix_total_zero]
      omega
    · have := hfirst (x - 1) (by omega)
      rwa [show x - 1 + 1 = x by omega] at this

/-- Cycle lemma for the code: when the running sums of `s` fit `int8_t` and `s` sums
to `-1`, every running sum of the spliced sequence is non-negative. -/
theorem rotation_nonneg_of_fits (s : List Int) (hs : s ≠ []) (hfit : NoOverflow 8 s)
    (hsum : s.sum = -1) (k : Nat) :
    0 ≤ prefix_total (s.drop (lowest_valley s + 1) ++ s.take (lowest_valley s)) k := by
  obtain ⟨hm_le, hge, hgt⟩ := valley_facts s hs hfit hsum
  have hlt := lowest_valley_lt s hs
  set i := lowest_valley s with hi
  rw [prefix_total_rotation]
  rcases Nat.lt_or_ge (s.length - (i + 1)) k with h | h
  · have h1 : prefix_total s (i + 1 + k) = -1 := by
      rw [prefix_total_of_length_le s _ (by omega), hsum]
    have h2 := hgt (min (k - (s.length - (i + 1))) i) (Nat.min_le_right _ _)
    omega
  · have h1 : min (k - (s.length - (i + 1))) i = 0 := by
      rw [Nat.sub_eq_zero_of_le h]
      exact Nat.zero_min i
    rw [h1, prefix_total_zero]
    have := hge (i + 1 + k) (by omega)
    omega

/-! ### The prefix predicates -/

theorem non_neg_loop_iff (bits : Nat) (hb : 0 < bits) (r : List Int) (sum : Int)
    (hfit : ∀ k, k ≤ r.length →
      -(2 : Int) ^ (bits - 1) ≤ sum + prefix_total r k ∧ sum + prefix_total r k < 2 ^ (bits - 1)) :
    non_neg_loop bits sum r = true ↔ ∀ k, 1 ≤ k → k ≤ r.length → 0 ≤ sum + prefix_total r k := by
  induction r generalizing sum with
  | nil =>
    simp only [non_neg_loop, List.length_nil, true_iff]
    intro k h1 h2
    omega
  | cons x rest ih =>
    have h1 := hfit 1 (by simp)
    rw [show (1 : Nat) = 0 + 1 from rfl, prefix_total_cons, prefix_total_zero, add_zero] at h1
    have hw : wrap bits (sum + x) = sum + x := wrap_of_fits bits hb _ h1.1 h1.2
    have hrest : ∀ k, k ≤ rest.length →
        -(2 : Int) ^ (bits - 1) ≤ (sum + x) + prefix_total rest k ∧
          (sum + x) + prefix_total rest k < 2 ^ (bits - 1) := by
      intro k hk
      have := hfit (k + 1) (by simpa using hk)
      rw [prefix_total_cons] at this
      constructor <;> linarith [this.1, this.2]
    simp only [non_neg_loop, hw]
    split
    · rename_i hneg
      simp only [Bool.false_eq_true, false_iff, not_forall]
      refine ⟨1, by omega, by simp, ?_⟩
      rw [show (1 : Nat) = 0 + 1 from rfl, prefix_total_cons, prefix_total_zero]
      omega
    · rename_i hpos
      rw [ih (sum + x) hrest]
      constructor
      · intro h k hk1 hk2
        obtain ⟨k, rfl⟩ : ∃ k0, k = k0 + 1 := ⟨k - 1, by omega⟩
        rw [prefix_total_cons]
        rcases Nat.eq_zero_or_pos k with h0 | h0
        · subst h0
          rw [prefix_total_zero]
          omega
        · have := h k h0 (by simpa using hk2)
          linarith
      · intro h k hk1 hk2
        have := h (k + 1) (by omega) (by simpa using hk2)
        rw [prefix_total_cons] at this
        linarith

theorem non_pos_loop_iff (bits : Nat) (hb : 0 < bits) (r : List Int) (sum : Int)
    (hfit : ∀ k, k ≤ r.length →
      -(2 : Int) ^ (bits - 1) ≤ sum + prefix_total r k ∧ sum + prefix_total r k < 2 ^ (bits - 1)) :
    non_pos_loop bits sum r = true ↔ ∀ k, 1 ≤ k → k ≤ r.length → sum + prefix_total r k ≤ 0 := by
  induction r generalizing sum with
  | nil =>
    simp only [non_pos_loop, List.length_nil, true_iff]
    intro k h1 h2
    omega
  | cons x rest ih =>
    have h1 := hfit 1 (by simp)
    rw [show (1 : Nat) = 0 + 1 from rfl, prefix_total_cons, prefix_total_zero, add_zero] at h1
    have hw : wrap bits (sum + x) = sum + x := wrap_of_fits bits hb _ h1.1 h1.2
    have hrest : ∀ k, k ≤ rest.length →
        -(2 : Int) ^ (bits - 1) ≤ (sum + x) + prefix_total rest k ∧
          (sum + x) + prefix_total rest k < 2 ^ (bits - 1) := by
      intro k hk
      have := hfit (k + 1) (by simpa using hk)
      rw [prefix_total_cons] at this
      constructor <;> linarith [this.1, this.2]
    simp only [non_pos_loop, hw]
    split
    · rename_i hneg
      simp only [Bool.false_eq_true, false_iff, not_forall]
      refine ⟨1, by omega, by simp, ?_⟩
      rw [show (1 : Nat) = 0 + 1 from rfl, prefix_total_cons, prefix_total_zero]
      omega
    · rename_i hpos
      rw [ih (sum + x) hrest]
      constructor
      · intro h k hk1 hk2
        obtain ⟨k, rfl⟩ : ∃ k0, k = k0 + 1 := ⟨k - 1, by omega⟩
        rw [prefix_total_cons]
        rcases Nat.eq_zero_or_pos k with h0 | h0
        · subst h0
          rw [prefix_total_zero]
          omega
        · have := h k h0 (by simpa using hk2)
          linarith
      · intro h k hk1 hk2
        have := h (k + 1) (by omega) (by simpa using hk2)
        rw [prefix_total_cons] at this
        linarith

/-- Without accumulator overflow `non_neg_prefix_sum` decides whether every running
sum is non-negative. -/
theorem non_neg_prefix_sum_iff (bits : Nat) (hb : 0 < bits) (r : List Int)
    (hfit : NoOverflow bits r) :
    non_neg_prefix_sum bits r = true ↔ ∀ k, k ≤ r.length → 0 ≤ prefix_total r k := by
  unfold non_neg_prefix_sum
  rw [non_neg_loop_iff bits hb r 0 (by simpa [NoOverflow] using hfit)]
  constructor
  · intro h k hk
    rcases Nat.eq_zero_or_pos k with h0 | h0
    · rw [h0, prefix_total_zero]
    · simpa using h k h0 hk
  · intro h k _ hk
    simpa using h k hk

/-- Without accumulator overflow `non_pos_prefix_sum` decides whether every running
sum is non-positive. -/
theorem non_pos_prefix_sum_iff (bits : Nat) (hb : 0 < bits) (r : List Int)
    (hfit : NoOverflow bits r) :
    non_pos_prefix_sum bits r = true ↔ ∀ k, k ≤ r.length → prefix_total r k ≤ 0 := by
  unfold non_pos_prefix_sum
  rw [non_pos_loop_iff bits hb r 0 (by simpa [NoOverflow] using hfit)]
  constructor
  · intro h k hk
    rcases Nat.eq_zero_or_pos k with h0 | h0
    · rw [h0, prefix_total_zero]
    · simpa using h k h0 hk
  · intro h k _ hk
    simpa using h k hk

theorem prefix_total_map_neg (r : List Int) (k : Nat) :
    prefix_total (r.map (fun x => -x)) k = -prefix_total r k := by
  unfold prefix_total
  rw [← List.map_take, ← List.sum_neg]

/-! ### Sequences of `+1` and `-1` -/

theorem sum_eq_count_sub (l : List Int) (h : ∀ x ∈ l, x = 1 ∨ x = -1) :
    l.sum = (l.count 1 : Int) - (l.count (-1) : Int) := by
  induction l with
  | nil => simp
  | cons x rest ih =>
    have hr := ih (fun y hy => h y (List.mem_cons_of_mem _ hy))
    rcases h x (by simp) with hx | hx
    · subst hx
      simp [List.count_cons, hr]
      ring
    · subst hx
      simp [List.count_cons, hr]
      ring

theorem symbols_count_one (n : Nat) : (symbols n).count 1 = n := by
  simp [symbols, List.count_append, List.count_replicate]

theorem symbols_count_neg_one (n : Nat) : (symbols n).count (-1) = n + 1 := by
  simp [symbols, List.count_append, List.count_replicate]

theorem symbols_length (n : Nat) : (symbols n).length = 2 * n + 1 := by
  simp [symbols]
  omega

theorem symbols_mem (n : Nat) (x : Int) (hx : x ∈ symbols n) : x = 1 ∨ x = -1 := by
  simp only [symbols, List.mem_append, List.mem_replicate] at hx
  rcases hx with h | h
  · exact Or.inl h.2
  · exact Or.inr h.2

theorem prefix_total_bounds (s : List Int) (h : ∀ x ∈ s, x = 1 ∨ x = -1) (k : Nat) :
    -(s.count (-1) : Int) ≤ prefix_total s k ∧ prefix_total s k ≤ (s.count 1 : Int) := by
  unfold prefix_total
  rw [sum_eq_count_sub _ (fun x hx => h x (List.mem_of_mem_take hx))]
  have h1 : (s.take k).count 1 ≤ s.count 1 := (List.take_sublist k s).count_le 1
  have h2 : (s.take k).count (-1) ≤ s.count (-1) := (List.take_sublist k s).count_le (-1)
  omega

theorem noOverflow_of_counts (s : List Int) (h : ∀ x ∈ s, x = 1 ∨ x = -1)
    (h1 : s.count 1 ≤ 127) (h2 : s.count (-1) ≤ 128) : NoOverflow 8 s := by
  intro k _
  have := prefix_total_bounds s h k
  norm_num
  omega


theorem perm_symbols_facts (n : Nat) (s : List Int) (hp : s.Perm (symbols n)) :
    (∀ x ∈ s, x = 1 ∨ x = -1) ∧ s.count 1 = n ∧ s.count (-1) = n + 1 ∧
      s.length = 2 * n + 1 ∧ s.sum = -1 := by
  have hmem : ∀ x ∈ s, x = 1 ∨ x = -1 := fun x hx => symbols_mem n x (hp.mem_iff.mp hx)
  have c1 : s.count 1 = n := by rw [hp.count_eq, symbols_count_one]
  have c2 : s.count (-1) = n + 1 := by rw [hp.count_eq, symbols_count_neg_one]
  refine ⟨hmem, c1, c2, by rw [hp.length_eq, symbols_length], ?_⟩
  rw [sum_eq_count_sub s hmem, c1, c2]
  push_cast
  ring

/-- The element at the valley is a `-1` while the running sums fit `int8_t`. -/
theorem valley_is_neg_one (s : List Int) (hs : s ≠ []) (hfit : NoOverflow 8 s)
    (hsum : s.sum = -1) (hmem : ∀ x ∈ s, x = 1 ∨ x = -1) :
    s[lowest_valley s]? = some (-1) := by
  obtain ⟨_, _, hgt⟩ := valley_facts s hs hfit hsum
  have hlt := lowest_valley_lt s hs
  have h1 := hgt (lowest_valley s) (le_refl _)
  rw [prefix_total_succ s _ hlt] at h1
  rw [List.getElem?_eq_getElem hlt]
  rcases hmem _ (List.getElem_mem hlt) with h | h
  · omega
  · rw [h]

theorem count_rotation (s : List Int) (i : Nat) (hi : i < s.length) (a : Int) :
    (s.drop (i + 1) ++ s.take i).count a + [s[i]].count a = s.count a := by
  conv_rhs => rw [← List.take_append_drop i s, List.drop_eq_getElem_cons hi]
  simp only [List.count_append, List.count_cons, List.count_nil]
  omega

/-- Balance, length and content of the spliced sequence for every permutation of
`symbols(n)` with `n ≤ 127`, the range in which no running sum leaves `int8_t`. -/
theorem cut_and_splice_of_small (n : Nat) (hn : n ≤ 127) (s : List Int)
    (hp : s.Perm (symbols n)) :
    ∃ out, cut_and_splice s = some out ∧ (∀ k, 0 ≤ prefix_total out k) ∧
      out.length = 2 * n ∧ out.count 1 = n ∧ out.count (-1) = n ∧
      s[lowest_valley s]? = some (-1) ∧ is_balanced out = true := by
  obtain ⟨hmem, c1, c2, hlen, hsum⟩ := perm_symbols_facts n s hp
  have hs : s ≠ [] := by
    intro h
    rw [h] at hlen
    simp at hlen
  have hfit : NoOverflow 8 s := noOverflow_of_counts s hmem (by omega) (by omega)
  have hlt := lowest_valley_lt s hs
  have hval := valley_is_neg_one s hs hfit hsum hmem
  have hv : s[lowest_valley s] = -1 := by
    rw [List.getElem?_eq_getElem hlt] at hval
    exact Option.some.inj hval
  have hnonneg := rotation_nonneg_of_fits s hs hfit hsum
  have k1 := count_rotation s _ hlt 1
  have k2 := count_rotation s _ hlt (-1)
  rw [hv] at k1 k2
  rw [show [(-1 : Int)].count 1 = 0 by decide] at k1
  rw [show [(-1 : Int)].count (-1) = 1 by decide] at k2
  have hmem_out : ∀ x ∈ s.drop (lowest_valley s + 1) ++ s.take (lowest_valley s),
      x = 1 ∨ x = -1 := by
    intro x hx
    rcases List.mem_append.mp hx with h | h
    · exact hmem x (List.mem_of_mem_drop h)
    · exact hmem x (List.mem_of_mem_take h)
  have hfit_out : NoOverflow 8 (s.drop (lowest_valley s + 1) ++ s.take (lowest_valley s)) :=
    noOverflow_of_counts _ hmem_out (by omega) (by omega)
  refine ⟨_, cut_and_splice_eq s hs, hnonneg, ?_, by omega, by omega, hval, ?_⟩
  · simp only [List.length_append, List.length_drop, List.length_take]
    omega
  · unfold is_balanced
    rw [non_neg_prefix_sum_iff 8 (by decide) _ hfit_out]
    intro k _
    exact hnonneg k


/-! ### Swapping two elements -/

theorem swap_eq_some {α : Type} (s : List α) (i j : Nat) (hi : i < s.length)
    (hj : j < s.length) : swap s i j = some ((s.set i s[j]).set j s[i]) := by
  unfold swap
  rw [List.getElem?_eq_getElem hi, List.getElem?_eq_getElem hj]

theorem swap_in_range {α : Type} (s t : List α) (i j : Nat) (h : swap s i j = some t) :
    i < s.length ∧ j < s.length := by
  unfold swap at h
  split at h
  · rename_i a b ha hb
    exact ⟨(List.getElem?_eq_some.mp ha).1, (List.getElem?_eq_some.mp hb).1⟩
  · cases h

theorem swap_length {α : Type} (s t : List α) (i j : Nat) (h : swap s i j = some t) :
    t.length = s.length := by
  obtain ⟨hi, hj⟩ := swap_in_range s t i j h
  rw [swap_eq_some s i j hi hj] at h
  rw [← Option.some.inj h]
  simp

theorem swap_getElem? {α : Type} (s t : List α) (i j : Nat) (h : swap s i j = some t)
    (k : Nat) : t[k]? = if k = j then s[i]? else if k = i then s[j]? else s[k]? := by
  obtain ⟨hi, hj⟩ := swap_in_range s t i j h
  rw [swap_eq_some s i j hi hj] at h
  rw [← Option.some.inj h, List.getElem?_set, List.getElem?_set]
  by_cases h1 : j = k
  · subst h1
    simp [hj, List.getElem?_eq_getElem hi]
  · have h1b : ¬ k = j := fun h => h1 h.symm
    by_cases h2 : i = k
    · subst h2
      simp [h1, h1b, hi, List.getElem?_eq_getElem hj]
    · have h2b : ¬ k = i := fun h => h2 h.symm
      simp [h1, h1b, h2, h2b]

theorem swap_perm {α : Type} (s t : List α) (i j : Nat) (h : swap s i j = some t) :
    t.Perm s := by
  classical
  obtain ⟨hi, hj⟩ := swap_in_range s t i j h
  by_cases hij : i = j
  · have : t = s := by
      apply List.ext_getElem?
      intro k
      rw [swap_getElem? s t i j h k]
      subst hij
      split
      · rename_i hk
        rw [hk]
      · rfl
    rw [this]
  · rw [swap_eq_some s i j hi hj] at h
    rw [← Option.some.inj h, List.perm_iff_count]
    intro c
    have hj2 : j < (s.set i s[j]).length := by simpa using hj
    rw [List.count_set _ _ _ _ hj2, List.count_set _ _ _ _ hi]
    have e : (s.set i s[j])[j] = s[j] := by
      rw [List.getElem_set]
      simp [hij]
    rw [e]
    have h1 : (if (s[i] == c) = true then 1 else 0) ≤ s.count c := by
      split
      · rename_i hc
        have : s[i] = c := by simpa using hc
        rw [← this]
        exact List.count_pos_iff.mpr (List.getElem_mem hi)
      · omega
    omega

theorem swap_mem {α : Type} (s t : List α) (i j : Nat) (h : swap s i j = some t) (x : α)
    (hx : x ∈ t) : x ∈ s :=
  (swap_perm s t i j h).mem_iff.mp hx

theorem swap_take {α : Type} (s t : List α) (i j k : Nat) (h : swap s i j = some t)
    (hki : k ≤ i) (hkj : k ≤ j) : t.take k = s.take k := by
  apply List.ext_getElem?
  intro m
  rw [List.getElem?_take, List.getElem?_take]
  split
  · rw [swap_getElem? s t i j h m, if_neg (by omega), if_neg (by omega)]
  · rfl

/-! ### The long alternating test input -/

theorem alternating_length (a b : Int) (len : Nat) : (alternating a b len).length = len := by
  simp [alternating]

theorem alternating_getElem? (a b : Int) (len i : Nat) (h : i < len) :
    (alternating a b len)[i]? = some (if i % 2 = 0 then a else b) := by
  simp [alternating, List.getElem?_map, List.getElem?_range h]

theorem alternating_succ (a b : Int) (len : Nat) :
    alternating a b (len + 1) = alternating a b len ++ [if len % 2 = 0 then a else b] := by
  simp [alternating, List.range_succ]

theorem alternating_take (a b : Int) (len k : Nat) (h : k ≤ len) :
    (alternating a b len).take k = alternating a b k := by
  unfold alternating
  rw [← List.map_take, List.take_range, Nat.min_eq_left h]

theorem alternating_sum (k : Nat) :
    (alternating 1 (-1) k).sum = if k % 2 = 0 then 0 else 1 := by
  induction k with
  | zero => simp [alternating]
  | succ k ih =>
    rw [alternating_succ, List.sum_append, ih]
    rcases Nat.mod_two_eq_zero_or_one k with h | h
    · have h2 : (k + 1) % 2 = 1 := by omega
      simp [h, h2]
    · have h2 : (k + 1) % 2 = 0 := by omega
      simp [h, h2]

theorem prefix_total_alternating (len k : Nat) (h : k ≤ len) :
    prefix_total (alternating 1 (-1) len) k = if k % 2 = 0 then 0 else 1 := by
  unfold prefix_total
  rw [alternating_take _ _ _ _ h, alternating_sum]

theorem alternating_mem (len : Nat) (x : Int) (hx : x ∈ alternating 1 (-1) len) :
    -1 ≤ x ∧ x ≤ 1 := by
  simp only [alternating, List.mem_map, List.mem_range] at hx
  obtain ⟨i, _, rfl⟩ := hx
  split <;> omega

theorem prefix_total_abs_le (r : List Int) (h : ∀ x ∈ r, -1 ≤ x ∧ x ≤ 1) (k : Nat) :
    -(r.length : Int) ≤ prefix_total r k ∧ prefix_total r k ≤ (r.length : Int) := by
  induction r generalizing k with
  | nil => simp [prefix_total]
  | cons x rest ih =>
    cases k with
    | zero =>
      rw [prefix_total_zero]
      constructor <;> omega
    | succ k =>
      have hx := h x (by simp)
      have hr := ih (fun y hy => h y (List.mem_cons_of_mem _ hy)) k
      rw [prefix_total_cons]
      simp only [List.length_cons]
      push_cast
      constructor <;> omega

/-- Sequences of steps in `{-1, 0, 1}` shorter than `2^(bits-1)` cannot overflow the
accumulator. -/
theorem noOverflow_of_steps (bits : Nat) (r : List Int) (h : ∀ x ∈ r, -1 ≤ x ∧ x ≤ 1)
    (hlen : (r.length : Int) < 2 ^ (bits - 1)) : NoOverflow bits r := by
  intro k _
  have := prefix_total_abs_le r h k
  constructor <;> omega

/-! ### Claims on the rotation -/

/-- C1 (cycle-lemma balance), evaluated at `n = 128` on the unscrambled `symbols(128)`:
the `int8_t` accumulator of `std::partial_sum` wraps from `127` to `-128` at position
`127`, `lowest_valley` returns that position, and the spliced sequence is `129`
minus-ones followed by `127` ones, whose first running sum is `-1`. -/
theorem cut_and_splice_symbols_128 :
    lowest_valley (symbols 128) = 127 ∧
    cut_and_splice (symbols 128) = some (List.replicate 129 (-1) ++ List.replicate 127 1) ∧
    prefix_total (List.replicate 129 (-1) ++ List.replicate 127 1) 1 = -1 := by
  refine ⟨by decide, by decide, by decide⟩

/-- C2 (`is_balanced` after `cut_and_splice`), evaluated at `n = 128` on the
permutation `-1, 1 (128 times), -1 (128 times)` of `symbols(128)`: the valley is
position `0`, the spliced sequence is `128` ones followed by `128` minus-ones, all of
its integer running sums are non-negative, and `is_balanced` returns `false` because
its `int8_t` running sum wraps from `127` to `-128`. -/
theorem is_balanced_false_at_128 :
    (-1 :: (List.replicate 128 1 ++ List.replicate 128 (-1))).Perm (symbols 128) ∧
    cut_and_splice (-1 :: (List.replicate 128 1 ++ List.replicate 128 (-1)))
      = some (List.replicate 128 1 ++ List.replicate 128 (-1)) ∧
    (∀ k, k ≤ 256 → 0 ≤ prefix_total (List.replicate 128 1 ++ List.replicate 128 (-1)) k) ∧
    is_balanced (List.replicate 128 1 ++ List.replicate 128 (-1)) = false := by
  refine ⟨?_, by decide, by decide, by decide⟩
  exact (@List.perm_middle Int (-1) (List.replicate 128 1) (List.replicate 128 (-1))).symm

/-- C3 (shape of the splice): for every non-empty sequence `s` the valley position `i`
is in range, and with `s = a ++ x :: b` split at `i` (`a` the elements at positions
`0 .. i-1`, `x` the element at `i`, `b` the elements at `i+1 .. end`) the result of
`cut_and_splice` is `b ++ a`. -/
theorem cut_and_splice_shape (s : List Int) (hs : s ≠ []) :
    ∃ a x b, s = a ++ x :: b ∧ a.length = lowest_valley s ∧
      cut_and_splice s = some (b ++ a) := by
  have hlt := lowest_valley_lt s hs
  refine ⟨s.take (lowest_valley s), s[lowest_valley s], s.drop (lowest_valley s + 1), ?_, ?_,
    cut_and_splice_eq s hs⟩
  · rw [← List.drop_eq_getElem_cons hlt, List.take_append_drop]
  · rw [List.length_take]
    omega

theorem cut_and_splice_shape_witness :
    ([1, 1, -1, -1, -1, 1, -1] : List Int) ≠ [] ∧
    ∃ a x b, ([1, 1, -1, -1, -1, 1, -1] : List Int) = a ++ x :: b ∧
      a.length = lowest_valley [1, 1, -1, -1, -1, 1, -1] ∧
      cut_and_splice [1, 1, -1, -1, -1, 1, -1] = some (b ++ a) :=
  ⟨by decide, cut_and_splice_shape [1, 1, -1, -1, -1, 1, -1] (by decide)⟩

/-- C4 (length and content of the splice), evaluated at `n = 128` on the unscrambled
`symbols(128)`: the result has length `256`, but the element dropped at the valley
position `127` is a `+1`, so `127` ones and `129` minus-ones remain. -/
theorem cut_and_splice_content_at_128 :
    (symbols 128)[lowest_valley (symbols 128)]? = some 1 ∧
    (cut_and_splice (symbols 128)).map List.length = some 256 ∧
    (cut_and_splice (symbols 128)).map (List.count 1) = some 127 ∧
    (cut_and_splice (symbols 128)).map (List.count (-1)) = some 129 := by
  refine ⟨by decide, by decide, by decide, by decide⟩

/-- C5 (first global minimum), evaluated on `128` ones: the integer running sums are
`1, 2, ..., 128` with their minimum at position `0`, yet `lowest_valley` returns
position `127`, where the `int8_t` accumulator of `std::partial_sum` has wrapped
to `-128`. -/
theorem lowest_valley_ones_128 :
    lowest_valley (List.replicate 128 1) = 127 ∧
    (partial_sum (List.replicate 128 1))[127]? = some (-128) ∧
    prefix_total (List.replicate 128 1) (0 + 1) = 1 ∧
    prefix_total (List.replicate 128 1) (127 + 1) = 128 := by
  refine ⟨by decide, by decide, by decide, by decide⟩


/-! ### Claims on the prefix predicates -/

theorem non_neg_alternating (len : Nat) (hlen : (len : Int) < 2 ^ 31) :
    non_neg_prefix_sum 32 (alternating 1 (-1) len) = true := by
  have hfit : NoOverflow 32 (alternating 1 (-1) len) :=
    noOverflow_of_steps 32 _ (alternating_mem len) (by rw [alternating_length]; exact hlen)
  rw [non_neg_prefix_sum_iff 32 (by decide) _ hfit]
  intro k hk
  rw [alternating_length] at hk
  rw [prefix_total_alternating len k hk]
  split <;> omega

theorem non_neg_alternating_swapped (len i : Nat) (hlen : (len : Int) < 2 ^ 31)
    (hi : i + 1 < len) (heven : i % 2 = 0) :
    (swap (alternating 1 (-1) len) i (i + 1)).map (non_neg_prefix_sum 32) = some false := by
  have hl := alternating_length 1 (-1) len
  have hsw := swap_eq_some (alternating 1 (-1) len) i (i + 1) (by omega) (by omega)
  generalize ((alternating 1 (-1) len).set i _).set (i + 1) _ = t at hsw
  have htl := swap_length _ t _ _ hsw
  rw [hsw, Option.map_some']
  congr 1
  have hfit : NoOverflow 32 t :=
    noOverflow_of_steps 32 _
      (fun x hx => alternating_mem len x (swap_mem _ t _ _ hsw x hx))
      (by rw [htl, hl]; exact hlen)
  rw [← Bool.not_eq_true, non_neg_prefix_sum_iff 32 (by decide) _ hfit]
  intro h
  have h1 := h (i + 1) (by rw [htl, hl]; omega)
  rw [prefix_total_succ _ _ (by rw [htl, hl]; omega)] at h1
  have h2 : prefix_total t i = 0 := by
    unfold prefix_total
    rw [swap_take _ t _ _ _ hsw (le_refl _) (by omega)]
    have := prefix_total_alternating len i (by omega)
    unfold prefix_total at this
    rw [this, if_pos heven]
  have h3 : t[i]? = some (-1) := by
    rw [swap_getElem? _ t _ _ hsw, if_neg (by omega), if_pos rfl,
      alternating_getElem? _ _ _ _ hi, if_neg (by omega)]
  obtain ⟨hlt, h4⟩ := List.getElem?_eq_some.mp h3
  rw [h2, h4] at h1
  omega

/-- C6 (`non_neg_prefix_sum`): for an accumulator of any width `bits ≥ 1` and every
sequence whose integer running sums fit it, the function returns `true` exactly when
every running sum is non-negative; on the `int` inputs of the tests it returns `true`
for the empty sequence and for `1,-1,1,-1`, `false` for `1,-1,-1,1`, `true` for the
alternating sequence of length `2^20`, and `false` once the elements at positions
`2^10` and `2^10 + 1` are swapped. -/
theorem non_neg_prefix_sum_correct :
    (∀ (bits : Nat) (r : List Int), 0 < bits → NoOverflow bits r →
      (non_neg_prefix_sum bits r = true ↔ ∀ k, k ≤ r.length → 0 ≤ prefix_total r k)) ∧
    non_neg_prefix_sum 32 [] = true ∧
    non_neg_prefix_sum 32 [1, -1, 1, -1] = true ∧
    non_neg_prefix_sum 32 [1, -1, -1, 1] = false ∧
    non_neg_prefix_sum 32 (alternating 1 (-1) (2 ^ 20)) = true ∧
    (swap (alternating 1 (-1) (2 ^ 20)) (2 ^ 10) (2 ^ 10 + 1)).map (non_neg_prefix_sum 32)
      = some false := by
  refine ⟨fun bits r hb hfit => non_neg_prefix_sum_iff bits hb r hfit, by decide, by decide,
    by decide, ?_, ?_⟩
  · exact non_neg_alternating (2 ^ 20) (by norm_num)
  · exact non_neg_alternating_swapped (2 ^ 20) (2 ^ 10) (by norm_num) (by norm_num) (by norm_num)

theorem non_neg_prefix_sum_correct_witness :
    0 < 8 ∧ NoOverflow 8 [1, 1, -1, -1, 1, -1] ∧
    (non_neg_prefix_sum 8 [1, 1, -1, -1, 1, -1] = true ↔
      ∀ k, k ≤ ([1, 1, -1, -1, 1, -1] : List Int).length →
        0 ≤ prefix_total [1, 1, -1, -1, 1, -1] k) :=
  ⟨by decide, by decide,
    non_neg_prefix_sum_correct.1 8 [1, 1, -1, -1, 1, -1] (by decide)
      (by decide)⟩

/-- C7 (`non_pos_prefix_sum` mirrors `non_neg_prefix_sum`): for an accumulator of any
width `bits ≥ 1`, when neither run overflows, `non_pos_prefix_sum` on `r` equals
`non_neg_prefix_sum` on `r` with every element negated; when the running sums of `r`
fit, it returns `true` exactly when every running sum is non-positive; it returns
`true` for the empty sequence and for `-1,1,-1,1` and `false` for `1,-1,-1,1`. -/
theorem non_pos_prefix_sum_mirror :
    (∀ (bits : Nat) (r : List Int), 0 < bits → NoOverflow bits r →
      NoOverflow bits (r.map (fun x => -x)) →
      non_pos_prefix_sum bits r = non_neg_prefix_sum bits (r.map (fun x => -x))) ∧
    (∀ (bits : Nat) (r : List Int), 0 < bits → NoOverflow bits r →
      (non_pos_prefix_sum bits r = true ↔ ∀ k, k ≤ r.length → prefix_total r k ≤ 0)) ∧
    non_pos_prefix_sum 32 [] = true ∧
    non_pos_prefix_sum 32 [-1, 1, -1, 1] = true ∧
    non_pos_prefix_sum 32 [1, -1, -1, 1] = false := by
  refine ⟨?_, fun bits r hb hfit => non_pos_prefix_sum_iff bits hb r hfit, by decide,
    by decide, by decide⟩
  intro bits r hb hfit hfitneg
  rw [Bool.eq_iff_iff, non_pos_prefix_sum_iff bits hb r hfit,
    non_neg_prefix_sum_iff bits hb _ hfitneg]
  simp only [List.length_map, prefix_total_map_neg]
  constructor
  · intro h k hk
    have := h k hk
    omega
  · intro h k hk
    have := h k hk
    omega

theorem non_pos_prefix_sum_mirror_witness :
    0 < 8 ∧ NoOverflow 8 [-1, 1, -1, -1] ∧
    NoOverflow 8 (([-1, 1, -1, -1] : List Int).map (fun x => -x)) ∧
    non_pos_prefix_sum 8 [-1, 1, -1, -1]
      = non_neg_prefix_sum 8 (([-1, 1, -1, -1] : List Int).map (fun x => -x)) :=
  ⟨by decide, by decide, by decide,
    non_pos_prefix_sum_mirror.1 8 [-1, 1, -1, -1] (by decide)
      (by decide) (by decide)⟩


/-! ### The scramble -/

theorem scramble_loop_some {α : Type} (draw : Nat → Nat) (i : Nat) (s : List α)
    (hi : i < s.length) (hdraw : ∀ k, 1 ≤ k → k ≤ i → draw k ≤ k) :
    ∃ out, scramble_loop draw i s = some out ∧ out.length = s.length ∧ out.Perm s ∧
      ∀ k, i < k → out[k]? = s[k]? := by
  induction i generalizing s with
  | zero => exact ⟨s, rfl, rfl, List.Perm.refl s, fun _ _ => rfl⟩
  | succ i ih =>
    have hd := hdraw (i + 1) (by omega) (le_refl _)
    have hsw := swap_eq_some s (i + 1) (draw (i + 1)) hi (by omega)
    generalize (s.set (i + 1) _).set (draw (i + 1)) _ = t at hsw
    have htl := swap_length s t _ _ hsw
    obtain ⟨out, h1, h2, h3, h4⟩ := ih t (by omega) (fun k hk1 hk2 => hdraw k hk1 (by omega))
    refine ⟨out, ?_, by omega, h3.trans (swap_perm s t _ _ hsw), ?_⟩
    · simp only [scramble_loop, hsw, Option.some_bind]
      exact h1
    · intro k hk
      rw [h4 k (by omega), swap_getElem? s t _ _ hsw k, if_neg (by omega), if_neg (by omega)]

theorem scramble_loop_congr {α : Type} (d1 d2 : Nat → Nat) (i : Nat) (s : List α)
    (h : ∀ k, 1 ≤ k → k ≤ i → d1 k = d2 k) : scramble_loop d1 i s = scramble_loop d2 i s := by
  induction i generalizing s with
  | zero => rfl
  | succ i ih =>
    simp only [scramble_loop]
    rw [h (i + 1) (by omega) (le_refl _)]
    cases swap s (i + 1) (d2 (i + 1)) with
    | none => rfl
    | some t =>
      simp only [Option.some_bind]
      exact ih t (fun k hk1 hk2 => h k hk1 (by omega))

theorem scramble_loop_injective {α : Type} (d1 d2 : Nat → Nat) (i : Nat) (s : List α)
    (hnd : s.Nodup) (hi : i < s.length)
    (h1 : ∀ k, 1 ≤ k → k ≤ i → d1 k ≤ k) (h2 : ∀ k, 1 ≤ k → k ≤ i → d2 k ≤ k)
    (heq : scramble_loop d1 i s = scramble_loop d2 i s) :
    ∀ k, 1 ≤ k → k ≤ i → d1 k = d2 k := by
  induction i generalizing s with
  | zero =>
    intro k hk1 hk2
    omega
  | succ i ih =>
    have hd1 := h1 (i + 1) (by omega) (le_refl _)
    have hd2 := h2 (i + 1) (by omega) (le_refl _)
    have hsw1 := swap_eq_some s (i + 1) (d1 (i + 1)) hi (by omega)
    have hsw2 := swap_eq_some s (i + 1) (d2 (i + 1)) hi (by omega)
    generalize (s.set (i + 1) _).set (d1 (i + 1)) _ = t1 at hsw1
    generalize (s.set (i + 1) _).set (d2 (i + 1)) _ = t2 at hsw2
    have hl1 := swap_length s t1 _ _ hsw1
    have hl2 := swap_length s t2 _ _ hsw2
    obtain ⟨o1, e1, _, _, f1⟩ :=
      scramble_loop_some d1 i t1 (by omega) (fun k hk1 hk2 => h1 k hk1 (by omega))
    obtain ⟨o2, e2, _, _, f2⟩ :=
      scramble_loop_some d2 i t2 (by omega) (fun k hk1 hk2 => h2 k hk1 (by omega))
    simp only [scramble_loop, hsw1, hsw2, Option.some_bind] at heq
    have ho : o1 = o2 := by
      rw [e1, e2] at heq
      exact Option.some.inj heq
    have hlast : s[d1 (i + 1)]? = s[d2 (i + 1)]? := by
      have b1 : t1[i + 1]? = s[d1 (i + 1)]? := by
        rw [swap_getElem? s t1 _ _ hsw1]
        split
        · rename_i hk
          rw [← hk]
        · simp
      have b2 : t2[i + 1]? = s[d2 (i + 1)]? := by
        rw [swap_getElem? s t2 _ _ hsw2]
        split
        · rename_i hk
          rw [← hk]
        · simp
      rw [← b1, ← b2, ← f1 (i + 1) (by omega), ← f2 (i + 1) (by omega), ho]
    have hdeq : d1 (i + 1) = d2 (i + 1) := by
      rw [List.getElem?_eq_getElem (by omega), List.getElem?_eq_getElem (by omega)] at hlast
      exact (List.Nodup.getElem_inj_iff hnd).mp (Option.some.inj hlast)
    have ht : t1 = t2 := by
      rw [hdeq] at hsw1
      rw [hsw1] at hsw2
      exact Option.some.inj hsw2
    subst ht
    have := ih t1 ((swap_perm s t1 _ _ hsw1).nodup_iff.mpr hnd) (by omega)
      (fun k hk1 hk2 => h1 k hk1 (by omega)) (fun k hk1 hk2 => h2 k hk1 (by omega)) heq
    intro k hk1 hk2
    rcases Nat.lt_or_ge k (i + 1) with hlt | hge
    · exact this k hk1 (by omega)
    · have : k = i + 1 := by omega
      rw [this]
      exact hdeq


theorem scramble_loop_surjective {α : Type} (i : Nat) (s p : List α) (hi : i < s.length)
    (hlen : p.length = s.length) (htake : (p.take (i + 1)).Perm (s.take (i + 1)))
    (hdrop : p.drop (i + 1) = s.drop (i + 1)) :
    ∃ d : Nat → Nat, (∀ k, d k ≤ k) ∧ scramble_loop d i s = some p := by
  induction i generalizing s with
  | zero =>
    refine ⟨fun _ => 0, fun k => Nat.zero_le k, ?_⟩
    have hs1 : s.take 1 = [s[0]] := by
      rw [List.take_succ, List.getElem?_eq_getElem hi]
      rfl
    have hp : p = s := by
      rw [← List.take_append_drop 1 p, ← List.take_append_drop 1 s, hdrop]
      congr 1
      rw [hs1] at htake ⊢
      exact List.perm_singleton.mp htake
    rw [hp]
    rfl
  | succ i ih =>
    have hpi : i + 1 < p.length := by omega
    have hpx : p[i + 1]? = some p[i + 1] := List.getElem?_eq_getElem hpi
    have hxmem : p[i + 1] ∈ s.take (i + 1 + 1) := by
      apply htake.mem_iff.mp
      rw [List.mem_take_iff_getElem]
      exact ⟨i + 1, by rw [Nat.lt_min]; omega, rfl⟩
    rw [List.mem_take_iff_getElem] at hxmem
    obtain ⟨j, hj0, hjx⟩ := hxmem
    have hj := Nat.lt_min.mp hj0
    have hsj : s[j]? = some p[i + 1] := by
      rw [List.getElem?_eq_getElem hj.2, hjx]
    have hsw := swap_eq_some s (i + 1) j hi hj.2
    generalize (s.set (i + 1) _).set j _ = t at hsw
    have htl := swap_length s t _ _ hsw
    have hbeyond : ∀ k, i + 1 < k → p[k]? = s[k]? := by
      intro k hk
      have := congrArg (fun l => l[k - (i + 1 + 1)]?) hdrop
      simp only [List.getElem?_drop] at this
      rwa [show i + 1 + 1 + (k - (i + 1 + 1)) = k by omega] at this
    have htx : t[i + 1]? = some p[i + 1] := by
      rw [swap_getElem? s t _ _ hsw]
      split
      · rename_i hk
        have hsj2 := hsj
        rw [← hk] at hsj2
        exact hsj2
      · simp [hsj]
    have htbeyond : ∀ k, i + 1 < k → t[k]? = s[k]? := by
      intro k hk
      rw [swap_getElem? s t _ _ hsw, if_neg (by omega), if_neg (by omega)]
    have hdrop2 : t.drop (i + 1 + 1) = s.drop (i + 1 + 1) := by
      apply List.ext_getElem?
      intro m
      rw [List.getElem?_drop, List.getElem?_drop]
      exact htbeyond _ (by omega)
    have hA : p.drop (i + 1) = t.drop (i + 1) := by
      apply List.ext_getElem?
      intro m
      rw [List.getElem?_drop, List.getElem?_drop]
      rcases Nat.eq_zero_or_pos m with h0 | h0
      · subst h0
        rw [Nat.add_zero, hpx, htx]
      · rw [hbeyond _ (by omega), htbeyond _ (by omega)]
    have hts : (t.take (i + 1 + 1)).Perm (s.take (i + 1 + 1)) := by
      have h1 := swap_perm s t _ _ hsw
      rw [← List.take_append_drop (i + 1 + 1) t, ← List.take_append_drop (i + 1 + 1) s,
        hdrop2] at h1
      exact (List.perm_append_right_iff _).mp h1
    have hB : (p.take (i + 1)).Perm (t.take (i + 1)) := by
      have h1 := htake.trans hts.symm
      rw [List.take_succ, List.take_succ (l := t), hpx, htx] at h1
      exact (List.perm_append_right_iff _).mp h1
    obtain ⟨d0, hd0, hloop⟩ := ih t (by omega) (by omega) hB hA
    refine ⟨fun k => if k = i + 1 then j else d0 k, ?_, ?_⟩
    · intro k
      show (if k = i + 1 then j else d0 k) ≤ k
      split
      · omega
      · exact hd0 k
    · simp only [scramble_loop, if_pos, hsw, Option.some_bind]
      rw [← hloop]
      apply scramble_loop_congr
      intro k hk1 hk2
      show (if k = i + 1 then j else d0 k) = d0 k
      rw [if_neg (by omega)]


theorem swap_map {α β : Type} (f : α → β) (s : List α) (i j : Nat) :
    swap (s.map f) i j = (swap s i j).map (List.map f) := by
  unfold swap
  rw [List.getElem?_map, List.getElem?_map]
  cases s[i]? with
  | none => rfl
  | some a =>
    cases s[j]? with
    | none => rfl
    | some b => simp [List.map_set]

theorem scramble_loop_map {α β : Type} (f : α → β) (draw : Nat → Nat) (i : Nat) (s : List α) :
    scramble_loop draw i (s.map f) = (scramble_loop draw i s).map (List.map f) := by
  induction i generalizing s with
  | zero => rfl
  | succ i ih =>
    simp only [scramble_loop, swap_map]
    cases swap s (i + 1) (draw (i + 1)) with
    | none => rfl
    | some t => simp [ih]

theorem scramble_map {α β : Type} (f : α → β) (bias : Bool) (uniform binomial : Nat → Nat)
    (s : List α) :
    scramble bias uniform binomial (s.map f) = (scramble bias uniform binomial s).map (List.map f) := by
  unfold scramble
  by_cases h : s.length = 0
  · simp [h]
  · simp [h, scramble_loop_map]

theorem scramble_some {α : Type} (bias : Bool) (uniform binomial : Nat → Nat) (s : List α)
    (hs : s ≠ [])
    (hdraw : ∀ i, 1 ≤ i → i < s.length → dist bias uniform binomial i ≤ i) :
    ∃ out, scramble bias uniform binomial s = some out ∧ out.length = s.length ∧ out.Perm s := by
  have hlen : s.length ≠ 0 := fun h => hs (List.length_eq_zero.mp h)
  obtain ⟨out, h1, h2, h3, _⟩ := scramble_loop_some (dist bias uniform binomial) (s.length - 1) s
    (by omega) (fun k hk1 hk2 => hdraw k hk1 (by omega))
  refine ⟨out, ?_, h2, h3⟩
  unfold scramble
  rw [if_neg hlen]
  exact h1

/-! ### Claims on the scramble -/

/-- C8 (scramble keeps the content): for every non-empty sequence and every run of the
loop in which the draw made at step `i` lies in `[0, i]`, in either mode, `scramble`
returns a sequence of the same length that is a permutation of the input, with as many
`+1` and as many `-1` as before. -/
theorem scramble_permutes (bias : Bool) (uniform binomial : Nat → Nat) (s : List Int)
    (hs : s ≠ [])
    (hdraw : ∀ i, 1 ≤ i → i < s.length → dist bias uniform binomial i ≤ i) :
    ∃ out, scramble bias uniform binomial s = some out ∧ out.length = s.length ∧
      out.Perm s ∧ out.count 1 = s.count 1 ∧ out.count (-1) = s.count (-1) := by
  obtain ⟨out, h1, h2, h3⟩ := scramble_some bias uniform binomial s hs hdraw
  exact ⟨out, h1, h2, h3, h3.count_eq 1, h3.count_eq (-1)⟩

theorem scramble_permutes_witness :
    ([1, 1, -1, -1, -1] : List Int) ≠ [] ∧
    (∀ i, 1 ≤ i → i < ([1, 1, -1, -1, -1] : List Int).length →
      dist true (fun _ => 0) (fun a => a / 2) i ≤ i) ∧
    ∃ out, scramble true (fun _ => 0) (fun a => a / 2) [1, 1, -1, -1, -1] = some out ∧
      out.length = ([1, 1, -1, -1, -1] : List Int).length ∧
      out.Perm [1, 1, -1, -1, -1] ∧ out.count 1 = ([1, 1, -1, -1, -1] : List Int).count 1 ∧
      out.count (-1) = ([1, 1, -1, -1, -1] : List Int).count (-1) :=
  ⟨by decide, fun i _ _ => Nat.div_le_self i 2,
    scramble_permutes true (fun _ => 0) (fun a => a / 2) [1, 1, -1, -1, -1] (by decide)
      (fun i _ _ => Nat.div_le_self i 2)⟩

/-- C9 (uniformity of the unbiased scramble): for every `m ≥ 1` and every sequence of
`m` distinct elements, each admissible draw vector (`0 ≤ j_i ≤ i` for `i = m-1, ..., 1`)
yields one of the `m!` arrangements, two draw vectors that yield the same arrangement
agree at every step, and every arrangement is yielded by some draw vector. The
arrangement of any sequence is the image of the arrangement of its positions. -/
theorem scramble_bijective {α : Type} (m : Nat) (hm : 1 ≤ m) (s : List α)
    (hlen : s.length = m) (hnd : s.Nodup) (binomial : Nat → Nat) :
    (∀ u : Nat → Nat, (∀ i, 1 ≤ i → i < m → u i ≤ i) →
      ∃ p, scramble false u binomial s = some p ∧ p ∈ s.permutations) ∧
    (∀ u1 u2 : Nat → Nat, (∀ i, 1 ≤ i → i < m → u1 i ≤ i) → (∀ i, 1 ≤ i → i < m → u2 i ≤ i) →
      scramble false u1 binomial s = scramble false u2 binomial s →
      ∀ i, 1 ≤ i → i < m → u1 i = u2 i) ∧
    (∀ p, p ∈ s.permutations →
      ∃ u : Nat → Nat, (∀ i, 1 ≤ i → i < m → u i ≤ i) ∧ scramble false u binomial s = some p) ∧
    s.permutations.length = m.factorial ∧ s.permutations.Nodup ∧
    (∀ (u : Nat → Nat) (f : α → Int),
      scramble false u binomial (s.map f) = (scramble false u binomial s).map (List.map f)) := by
  subst hlen
  have hs : s ≠ [] := by
    intro h
    rw [h] at hm
    simp at hm
  have hlen0 : s.length ≠ 0 := fun h => hs (List.length_eq_zero.mp h)
  have hdist : ∀ u : Nat → Nat, dist false u binomial = u := by
    intro u
    funext a
    simp [dist]
  refine ⟨?_, ?_, ?_, List.length_permutations s, List.nodup_permutations s hnd,
    fun u f => scramble_map f false u binomial s⟩
  · intro u hu
    obtain ⟨p, h1, _, h3⟩ := scramble_some false u binomial s hs (by rw [hdist]; exact hu)
    exact ⟨p, h1, List.mem_permutations.mpr h3⟩
  · intro u1 u2 h1 h2 heq i hi1 hi2
    unfold scramble at heq
    rw [if_neg hlen0, if_neg hlen0, hdist, hdist] at heq
    exact scramble_loop_injective u1 u2 (s.length - 1) s hnd (by omega)
      (fun k hk1 hk2 => h1 k hk1 (by omega)) (fun k hk1 hk2 => h2 k hk1 (by omega)) heq
      i hi1 (by omega)
  · intro p hp
    have hperm := List.mem_permutations.mp hp
    have hpl := hperm.length_eq
    obtain ⟨d, hd, hloop⟩ := scramble_loop_surjective (s.length - 1) s p (by omega) hpl
      (by
        rw [List.take_of_length_le (by omega), List.take_of_length_le (by omega)]
        exact hperm)
      (by rw [List.drop_eq_nil_of_le (by omega), List.drop_eq_nil_of_le (by omega)])
    refine ⟨d, fun i _ _ => hd i, ?_⟩
    unfold scramble
    rw [if_neg hlen0, hdist]
    exact hloop

theorem scramble_bijective_witness :
    1 ≤ 3 ∧ ([0, 1, 2] : List Nat).length = 3 ∧ ([0, 1, 2] : List Nat).Nodup ∧
    (∀ p, p ∈ ([0, 1, 2] : List Nat).permutations →
      ∃ u : Nat → Nat, (∀ i, 1 ≤ i → i < 3 → u i ≤ i) ∧
        scramble false u (fun a => a) [0, 1, 2] = some p) ∧
    ([0, 1, 2] : List Nat).permutations.length = Nat.factorial 3 :=
  ⟨by decide, by decide, by decide,
    (scramble_bijective 3 (by decide) [0, 1, 2] (by decide) (by decide) (fun a => a)).2.2.1,
    (scramble_bijective 3 (by decide) [0, 1, 2] (by decide) (by decide) (fun a => a)).2.2.2.1⟩


theorem scramble_loop_length {α : Type} (draw : Nat → Nat) (i : Nat) (s out : List α)
    (h : scramble_loop draw i s = some out) : out.length = s.length := by
  induction i generalizing s with
  | zero =>
    simp only [scramble_loop, Option.some.injEq] at h
    rw [h]
  | succ i ih =>
    simp only [scramble_loop] at h
    cases hsw : swap s (i + 1) (draw (i + 1)) with
    | none => simp [hsw] at h
    | some t =>
      rw [hsw, Option.some_bind] at h
      rw [ih t h, swap_length s t _ _ hsw]

theorem scramble_length {α : Type} (bias : Bool) (uniform binomial : Nat → Nat)
    (s out : List α) (h : scramble bias uniform binomial s = some out) :
    out.length = s.length := by
  unfold scramble at h
  split at h
  · cases h
  · exact scramble_loop_length _ _ s out h

theorem cut_and_splice_length (s out : List Int) (h : cut_and_splice s = some out) :
    out.length + 1 = s.length := by
  have hs : s ≠ [] := by
    intro h0
    rw [h0] at h
    simp [cut_and_splice] at h
  rw [cut_and_splice_eq s hs] at h
  have hlt := lowest_valley_lt s hs
  rw [← Option.some.inj h]
  simp only [List.length_append, List.length_drop, List.length_take]
  omega

/-! ### Claims on the golden value -/

/-- C18 (golden value for `n = 8`): whatever the generator draws, `scramble` followed
by `cut_and_splice` on `symbols(8)` never yields the six-element sequence
`1,1,-1,-1,1,-1` that the test expects; with admissible draws it yields a sequence of
`16` elements. -/
theorem golden_eight_unreachable (bias : Bool) (uniform binomial : Nat → Nat) :
    (scramble bias uniform binomial (symbols 8)).bind cut_and_splice
      ≠ some [1, 1, -1, -1, 1, -1] ∧
    ((∀ i, 1 ≤ i → i < 17 → dist bias uniform binomial i ≤ i) →
      ∃ out, (scramble bias uniform binomial (symbols 8)).bind cut_and_splice = some out ∧
        out.length = 16) := by
  have hlen : (symbols 8).length = 17 := by rw [symbols_length]
  have key : ∀ out, (scramble bias uniform binomial (symbols 8)).bind cut_and_splice = some out →
      out.length = 16 := by
    intro out h
    cases hsc : scramble bias uniform binomial (symbols 8) with
    | none => simp [hsc] at h
    | some p =>
      rw [hsc, Option.some_bind] at h
      have h1 := scramble_length bias uniform binomial _ p hsc
      have h2 := cut_and_splice_length p out h
      omega
  constructor
  · intro h
    have := key _ h
    simp at this
  · intro hdraw
    have hne : symbols 8 ≠ [] := by
      intro h0
      rw [h0] at hlen
      simp at hlen
    obtain ⟨p, h1, h2, _⟩ := scramble_some bias uniform binomial (symbols 8) hne
      (fun i hi1 hi2 => hdraw i hi1 (by omega))
    have hp : p ≠ [] := by
      intro h0
      rw [h0, hlen] at h2
      simp at h2
    have h3 : (scramble bias uniform binomial (symbols 8)).bind cut_and_splice
        = some (p.drop (lowest_valley p + 1) ++ p.take (lowest_valley p)) := by
      rw [h1, Option.some_bind, cut_and_splice_eq p hp]
    exact ⟨_, h3, key _ h3⟩

theorem golden_eight_unreachable_witness :
    (∀ i, 1 ≤ i → i < 17 → dist false (fun a => a) (fun a => a / 2) i ≤ i) ∧
    ∃ out, (scramble false (fun a => a) (fun a => a / 2) (symbols 8)).bind cut_and_splice
        = some out ∧ out.length = 16 :=
  ⟨fun i _ _ => le_refl i,
    (golden_eight_unreachable false (fun a => a) (fun a => a / 2)).2 (fun i _ _ => le_refl i)⟩


/-! ### Rotations and reachability -/

/-- Uniqueness in the cycle lemma: two sequences with non-negative running sums, the
first of total `0`, that are rotations of each other once a `-1` is appended, are
equal. -/
theorem balanced_rotation_unique (b b2 : List Int) (hb : ∀ k, 0 ≤ prefix_total b k)
    (hb2 : ∀ k, 0 ≤ prefix_total b2 k) (hsum : b.sum = 0)
    (hrot : List.IsRotated (b ++ [-1]) (b2 ++ [-1])) : b = b2 := by
  obtain ⟨j, hj, hjr⟩ := List.isRotated_iff_mod.mp hrot
  have hl2 : b2.length = b.length := by
    have := congrArg List.length hjr
    simp only [List.length_rotate, List.length_append, List.length_singleton] at this
    omega
  rw [List.rotate_eq_drop_append_take hj] at hjr
  simp only [List.length_append, List.length_singleton] at hj
  by_cases h0 : j = 0
  · subst h0
    simp only [List.drop_zero, List.take_zero, List.append_nil] at hjr
    exact List.append_cancel_right hjr
  by_cases h1 : j = b.length + 1
  · subst h1
    rw [List.drop_eq_nil_of_le (by simp), List.take_of_length_le (by simp),
      List.nil_append] at hjr
    exact List.append_cancel_right hjr
  exfalso
  have hdl : ((b ++ [-1]).drop j).length = b.length + 1 - j := by simp
  have e1 : (b2 ++ [-1]).take (b.length + 1 - j) = (b ++ [-1]).drop j := by
    rw [← hjr]
    exact List.take_left' hdl
  have e2 : (b2 ++ [-1]).take (b.length + 1 - j) = b2.take (b.length + 1 - j) :=
    List.take_append_of_le_length (by omega)
  have e3 : (b ++ [-1]).take j = b.take j := List.take_append_of_le_length (by omega)
  have e4 := List.sum_take_add_sum_drop (b ++ [-1]) j
  rw [e3, ← e1, e2, List.sum_append, hsum] at e4
  have p1 := hb j
  have p2 := hb2 (b.length + 1 - j)
  unfold prefix_total at p1 p2
  simp only [List.sum_singleton] at e4
  omega

/-- When the valley element is a `-1`, the spliced sequence followed by that `-1` is a
rotation of the input. -/
theorem spliced_is_rotated (s : List Int) (hs : s ≠ []) (hv : s[lowest_valley s]? = some (-1)) :
    List.IsRotated s ((s.drop (lowest_valley s + 1) ++ s.take (lowest_valley s)) ++ [-1]) := by
  have hlt := lowest_valley_lt s hs
  refine ⟨lowest_valley s + 1, ?_⟩
  rw [List.rotate_eq_drop_append_take (by omega), List.take_succ, hv]
  simp

/-- Rotation invariance for `n ≤ 127`, the range in which no running sum leaves
`int8_t`. -/
theorem cut_and_splice_rotate_of_small (n : Nat) (hn : n ≤ 127) (s : List Int)
    (hp : s.Perm (symbols n)) (k : Nat) :
    cut_and_splice (s.rotate k) = cut_and_splice s := by
  have hp2 : (s.rotate k).Perm (symbols n) := (List.rotate_perm s k).trans hp
  have hne : ∀ t : List Int, t.Perm (symbols n) → t ≠ [] := by
    intro t ht h0
    have := ht.length_eq
    rw [h0, symbols_length] at this
    simp at this
  have facts : ∀ t : List Int, t.Perm (symbols n) →
      (∀ j, 0 ≤ prefix_total (t.drop (lowest_valley t + 1) ++ t.take (lowest_valley t)) j) ∧
      (t.drop (lowest_valley t + 1) ++ t.take (lowest_valley t)).sum = 0 ∧
      List.IsRotated t ((t.drop (lowest_valley t + 1) ++ t.take (lowest_valley t)) ++ [-1]) := by
    intro t ht
    obtain ⟨out, h1, h2, _, _, _, h6, _⟩ := cut_and_splice_of_small n hn t ht
    rw [cut_and_splice_eq t (hne t ht)] at h1
    have hout := Option.some.inj h1
    have hrot := spliced_is_rotated t (hne t ht) h6
    refine ⟨by rw [hout]; exact h2, ?_, hrot⟩
    have hs1 := hrot.perm.sum_eq
    rw [(perm_symbols_facts n t ht).2.2.2.2, List.sum_append] at hs1
    simp only [List.sum_singleton] at hs1
    omega
  obtain ⟨a1, a2, a3⟩ := facts s hp
  obtain ⟨b1, b2, b3⟩ := facts (s.rotate k) hp2
  have hrot : List.IsRotated
      ((s.drop (lowest_valley s + 1) ++ s.take (lowest_valley s)) ++ [-1])
      (((s.rotate k).drop (lowest_valley (s.rotate k) + 1)
        ++ (s.rotate k).take (lowest_valley (s.rotate k))) ++ [-1]) :=
    a3.symm.trans ((List.IsRotated.forall s k).symm.trans b3)
  rw [cut_and_splice_eq s (hne s hp), cut_and_splice_eq _ (hne _ hp2)]
  congr 1
  exact (balanced_rotation_unique _ _ a1 b1 a2 hrot).symm

/-- Every sequence with non-negative running sums and total `0` is reached from itself
followed by a `-1`, while the running sums fit `int8_t`. -/
theorem cut_and_splice_reaches_of_fits (b : List Int) (hfit : NoOverflow 8 (b ++ [-1]))
    (hpre : ∀ k, 0 ≤ prefix_total b k) (hsum : b.sum = 0) :
    cut_and_splice (b ++ [-1]) = some b := by
  have hs : b ++ [-1] ≠ [] := by simp
  obtain ⟨hlt, hmin, _⟩ := lowest_valley_of_fits (b ++ [-1]) hs hfit
  simp only [List.length_append, List.length_singleton] at hlt hmin
  have hlast := hmin b.length (by omega)
  have htot : prefix_total (b ++ [-1]) (b.length + 1) = -1 := by
    rw [prefix_total_of_length_le _ _ (by simp), List.sum_append, hsum]
    simp
  rw [htot] at hlast
  have hi : lowest_valley (b ++ [-1]) = b.length := by
    by_contra hne
    have hlt2 : lowest_valley (b ++ [-1]) + 1 ≤ b.length := by omega
    have h1 : prefix_total (b ++ [-1]) (lowest_valley (b ++ [-1]) + 1)
        = prefix_total b (lowest_valley (b ++ [-1]) + 1) := by
      unfold prefix_total
      rw [List.take_append_of_le_length hlt2]
    rw [h1] at hlast
    have := hpre (lowest_valley (b ++ [-1]) + 1)
    omega
  rw [cut_and_splice_eq _ hs, hi]
  congr 1
  rw [List.drop_eq_nil_of_le (by simp), List.nil_append, List.take_left' rfl]

/-- C19 (rotation invariance), evaluated at `n = 128`: `symbols(128)` rotated by `256`
positions is `-1`, then `128` ones, then `128` minus-ones, whose splice is `128` ones
followed by `128` minus-ones, while the splice of `symbols(128)` itself is `129`
minus-ones followed by `127` ones. -/
theorem rotation_changes_splice_at_128 :
    (symbols 128).rotate 256 = -1 :: (List.replicate 128 1 ++ List.replicate 128 (-1)) ∧
    cut_and_splice ((symbols 128).rotate 256)
      = some (List.replicate 128 1 ++ List.replicate 128 (-1)) ∧
    cut_and_splice (symbols 128) = some (List.replicate 129 (-1) ++ List.replicate 127 1) ∧
    cut_and_splice ((symbols 128).rotate 256) ≠ cut_and_splice (symbols 128) := by
  refine ⟨by decide, by decide, by decide, by decide⟩

/-- C20 (every balanced sequence is reachable), evaluated on `b` = `128` ones followed
by `128` minus-ones: all running sums of `b` are non-negative and its total is `0`, yet
`cut_and_splice` on `b` followed by `-1` gives `129` minus-ones followed by `127`
ones, not `b`. -/
theorem balanced_not_reached_at_128 :
    (∀ k, k ≤ 256 → 0 ≤ prefix_total (List.replicate 128 1 ++ List.replicate 128 (-1)) k) ∧
    (List.replicate 128 (1 : Int) ++ List.replicate 128 (-1)).sum = 0 ∧
    cut_and_splice ((List.replicate 128 1 ++ List.replicate 128 (-1)) ++ [-1])
      = some (List.replicate 129 (-1) ++ List.replicate 127 1) ∧
    cut_and_splice ((List.replicate 128 1 ++ List.replicate 128 (-1)) ++ [-1])
      ≠ some (List.replicate 128 1 ++ List.replicate 128 (-1)) := by
  refine ⟨by decide, by decide, by decide, by decide⟩

/-! ### The hash of a sequence -/

theorem binary_value_append (acc : Nat) (l : List Int) (x : Int) :
    binary_value acc (l ++ [x]) = 2 * binary_value acc l + (if x = 1 then 1 else 0) := by
  induction l generalizing acc with
  | nil => rfl
  | cons y rest ih => exact ih _

theorem binary_value_acc (acc : Nat) (l : List Int) :
    binary_value acc l = acc * 2 ^ l.length + binary_value 0 l := by
  induction l generalizing acc with
  | nil => simp [binary_value]
  | cons y rest ih =>
    simp only [binary_value, List.length_cons]
    rw [ih (2 * acc + _), ih (2 * 0 + _)]
    ring

theorem binary_value_lt (l : List Int) : binary_value 0 l < 2 ^ l.length := by
  induction l using List.reverseRecOn with
  | nil => simp [binary_value]
  | append_singleton l x ih =>
    rw [binary_value_append, List.length_append, List.length_singleton, pow_succ]
    split <;> omega

theorem lor_bit_of_even (v : Nat) (x : Int) :
    (2 * v) ||| (if x = 1 then 1 else 0) = 2 * v + (if x = 1 then 1 else 0) := by
  have hlt : (if x = 1 then 1 else 0) < 2 ^ 1 := by split <;> decide
  have h := Nat.mul_add_lt_is_or hlt v
  rw [pow_one] at h
  exact h.symm

theorem take_succ_of_getElem? (s : List Int) (i : Nat) (x : Int) (h : s[i]? = some x) :
    s.take (i + 1) = s.take i ++ [x] := by
  rw [List.take_succ, h]
  rfl

theorem shifted_value (s : List Int) (i : Nat) (hi : i < s.length) (h63 : i + 1 ≤ 63) :
    ((2 * binary_value 0 (s.take i) ||| (if s[i] = 1 then 1 else 0)) <<< 1) % 2 ^ 64
      = 2 * binary_value 0 (s.take (i + 1)) := by
  have hx : s[i]? = some s[i] := List.getElem?_eq_getElem hi
  have hb := binary_value_lt (s.take (i + 1))
  have hl : (s.take (i + 1)).length = i + 1 := by
    rw [List.length_take]
    omega
  rw [hl] at hb
  have hp : 2 ^ (i + 1) * 2 ≤ 2 ^ 64 := by
    rw [← pow_succ]
    exact Nat.pow_le_pow_right (by decide) (by omega)
  rw [lor_bit_of_even, ← binary_value_append, ← take_succ_of_getElem? s i _ hx,
    Nat.shiftLeft_eq, pow_one]
  generalize binary_value 0 (s.take (i + 1)) = B at hb ⊢
  generalize (2 : Nat) ^ (i + 1) = P at hb hp
  generalize (2 : Nat) ^ 64 = Q at hp ⊢
  rw [Nat.mod_eq_of_lt (by omega)]
  omega

/-- While it stays in range the loop of `to_bits` keeps twice the binary value of the
symbols read so far. -/
theorem to_bits_loop_spec (s : List Int) (passes i : Nat) (h1 : i + passes < s.length)
    (h2 : i + passes ≤ 63) :
    to_bits_loop s passes i (2 * binary_value 0 (s.take i))
      = some (i + passes, 2 * binary_value 0 (s.take (i + passes))) := by
  induction passes generalizing i with
  | zero => rfl
  | succ passes ih =>
    have hi : i < s.length := by omega
    have hx : s[i]? = some s[i] := List.getElem?_eq_getElem hi
    have step : to_bits_loop s (passes + 1) i (2 * binary_value 0 (s.take i))
        = to_bits_loop s passes (i + 1)
            (((2 * binary_value 0 (s.take i) ||| (if s[i] = 1 then 1 else 0)) <<< 1) % 2 ^ 64) := by
      simp only [to_bits_loop, hx]
    rw [step, shifted_value s i hi (by omega), ih (i + 1) (by omega) (by omega),
      show i + 1 + passes = i + (passes + 1) by omega]

/-- Unfolding of `to_bits` once the number of passes of its loop is known. -/
theorem to_bits_of_passes (s : List Int) (p : Nat)
    (hp : (2 ^ 64 - 1 + s.length) % 2 ^ 64 = p) :
    to_bits s = match to_bits_loop s p 0 0 with
      | none => none
      | some (i, bits) =>
        match s[i]? with
        | none => none
        | some x => some (bits ||| (if x = 1 then 1 else 0)) := by
  unfold to_bits
  rw [hp]

/-- The last pass of `to_bits` after the loop: the sequence is its first `size() - 1`
symbols followed by its last one. -/
theorem take_pred_append_last (s : List Int) (h1 : 1 ≤ s.length) :
    ∃ x, s[s.length - 1]? = some x ∧ s.take (s.length - 1) ++ [x] = s := by
  have hlast : s.length - 1 < s.length := by omega
  refine ⟨s[s.length - 1], List.getElem?_eq_getElem hlast, ?_⟩
  rw [← take_succ_of_getElem? s _ _ (List.getElem?_eq_getElem hlast),
    show s.length - 1 + 1 = s.length by omega, List.take_of_length_le (le_refl _)]

/-- For one to sixty-four symbols `to_bits` is defined and is the binary value of the
sequence. -/
theorem to_bits_eq (s : List Int) (h1 : 1 ≤ s.length) (h2 : s.length ≤ 64) :
    to_bits s = some (binary_value 0 s) := by
  obtain ⟨x, hx, hfull⟩ := take_pred_append_last s h1
  have hloop := to_bits_loop_spec s (s.length - 1) 0 (by omega) (by omega)
  rw [List.take_zero, Nat.zero_add] at hloop
  have hz : 2 * binary_value 0 ([] : List Int) = 0 := rfl
  rw [hz] at hloop
  have h64 : (64 : Nat) < 2 ^ 64 := by norm_num
  rw [to_bits_of_passes s _ (size_minus_one s.length h1 (lt_of_le_of_lt h2 h64)), hloop]
  simp only [hx]
  rw [lor_bit_of_even, ← binary_value_append, hfull]

/-- Bit contributed by a symbol `1`. -/
theorem bit_of_one : (if (1 : Int) = 1 then 1 else 0 : Nat) = 1 := by decide

/-- Bit contributed by a symbol `-1`. -/
theorem bit_of_neg_one : (if (-1 : Int) = 1 then 1 else 0 : Nat) = 0 := by decide

/-- On sequences of `1` and `-1` of the same length the binary value determines the
sequence. -/
theorem binary_value_injective (a b : List Int) (ha : ∀ x ∈ a, x = 1 ∨ x = -1)
    (hb : ∀ x ∈ b, x = 1 ∨ x = -1) (hlen : a.length = b.length)
    (h : binary_value 0 a = binary_value 0 b) : a = b := by
  induction a generalizing b with
  | nil =>
    cases b with
    | nil => rfl
    | cons y b => simp at hlen
  | cons x a ih =>
    cases b with
    | nil => simp at hlen
    | cons y b =>
      have hl : a.length = b.length := by simpa using hlen
      have hx := ha x (List.mem_cons_self _ _)
      have hy := hb y (List.mem_cons_self _ _)
      have ha' : ∀ z ∈ a, z = 1 ∨ z = -1 := fun z hz => ha z (List.mem_cons_of_mem _ hz)
      have hb' : ∀ z ∈ b, z = 1 ∨ z = -1 := fun z hz => hb z (List.mem_cons_of_mem _ hz)
      have la := binary_value_lt a
      have lb := binary_value_lt b
      rw [hl] at la
      simp only [binary_value] at h
      rw [binary_value_acc _ a, binary_value_acc _ b, hl] at h
      have key : x = y ∧ binary_value 0 a = binary_value 0 b := by
        generalize binary_value 0 a = A at h la
        generalize binary_value 0 b = B at h lb
        generalize (2 : Nat) ^ b.length = P at h la lb
        rcases hx with rfl | rfl <;> rcases hy with rfl | rfl
        · exact ⟨rfl, by omega⟩
        · rw [bit_of_one, bit_of_neg_one] at h
          simp only [Nat.mul_zero, Nat.zero_add, Nat.one_mul, Nat.zero_mul] at h
          omega
        · rw [bit_of_one, bit_of_neg_one] at h
          simp only [Nat.mul_zero, Nat.zero_add, Nat.one_mul, Nat.zero_mul] at h
          omega
        · exact ⟨rfl, by omega⟩
      rw [key.1, ih b ha' hb' hl key.2]

/-- On sequences of `1` and `-1` the characters written by `to_string` determine the
sequence. -/
theorem symbol_chars_injective (a b : List Int) (ha : ∀ x ∈ a, x = 1 ∨ x = -1)
    (hb : ∀ x ∈ b, x = 1 ∨ x = -1)
    (h : a.map (fun (x : Int) => if x = 1 then '1' else '0')
      = b.map (fun (x : Int) => if x = 1 then '1' else '0')) : a = b := by
  induction a generalizing b with
  | nil =>
    cases b with
    | nil => rfl
    | cons y b => simp at h
  | cons x a ih =>
    cases b with
    | nil => simp at h
    | cons y b =>
      rw [List.map_cons, List.map_cons, List.cons.injEq] at h
      have hx := ha x (List.mem_cons_self _ _)
      have hy := hb y (List.mem_cons_self _ _)
      have ha' : ∀ z ∈ a, z = 1 ∨ z = -1 := fun z hz => ha z (List.mem_cons_of_mem _ hz)
      have hb' : ∀ z ∈ b, z = 1 ∨ z = -1 := fun z hz => hb z (List.mem_cons_of_mem _ hz)
      have hxy : x = y := by
        have h1 := h.1
        rcases hx with rfl | rfl <;> rcases hy with rfl | rfl
        · rfl
        · exact absurd h1 (by decide)
        · exact absurd h1 (by decide)
        · rfl
      rw [hxy, ih b ha' hb' h.2]

/-- On sequences of `1` and `-1`, `to_string` is injective. -/
theorem to_string_injective (a b : List Int) (ha : ∀ x ∈ a, x = 1 ∨ x = -1)
    (hb : ∀ x ∈ b, x = 1 ∨ x = -1) (h : to_string a = to_string b) : a = b :=
  symbol_chars_injective a b ha hb (congrArg String.data h)

/-- The hash of a non-empty sequence is defined: `to_string` reads every symbol once, and
for at most sixty-four symbols `to_bits` reads positions `0` to `size() - 1`. -/
theorem symbols_hash_some (hash_string : String → Nat) (hash_size : Nat → Nat)
    (s : List Int) (hs : s ≠ []) :
    ∃ h, symbols_hash hash_string hash_size s = some h := by
  have h1 : 1 ≤ s.length := Nat.pos_of_ne_zero (fun h0 => hs (List.length_eq_zero.mp h0))
  by_cases h : s.length > 8 * 8
  · exact ⟨hash_string (to_string s), if_pos h⟩
  · refine ⟨hash_size (binary_value 0 s), ?_⟩
    have h2 : s.length ≤ 64 := by omega
    rw [symbols_hash, if_neg h, to_bits_eq s h1 h2]
    rfl

/-- The hash of every key inserted for `n ≥ 1` is defined: the result of `cut_and_splice`
on a permutation of `symbols n` has `2 * n` symbols. -/
theorem symbols_hash_cut_and_splice (hash_string : String → Nat) (hash_size : Nat → Nat)
    (n : Nat) (hn : 1 ≤ n) (s out : List Int) (hp : s.Perm (symbols n))
    (hc : cut_and_splice s = some out) :
    out.length = 2 * n ∧ ∃ h, symbols_hash hash_string hash_size out = some h := by
  have hl := cut_and_splice_length s out hc
  have hs := (perm_symbols_facts n s hp).2.2.2.1
  have hlen : out.length = 2 * n := by omega
  refine ⟨hlen, symbols_hash_some hash_string hash_size out ?_⟩
  intro h0
  rw [h0] at hlen
  simp at hlen
  omega

/-- C21 (code defect at `n = 0`): the hash is not defined for every key the loop can
insert. `symbols 0` is the single symbol `-1`, `cut_and_splice` turns it into the empty
sequence, and on the empty sequence `to_bits` takes `size() - 1` to be `2 ^ 64 - 1`, so
its loop starts and its first pass reads position `0`, which is out of range; the hash,
which uses `to_bits` for at most sixty-four symbols, is therefore undefined. -/
theorem hash_undefined_for_empty (hash_string : String → Nat) (hash_size : Nat → Nat) :
    cut_and_splice (symbols 0) = some [] ∧
      (2 ^ 64 - 1 + ([] : List Int).length) % 2 ^ 64 = 2 ^ 64 - 1 ∧
      to_bits_loop [] (2 ^ 64 - 1) 0 0 = none ∧
      to_bits [] = none ∧
      symbols_hash hash_string hash_size [] = none := by
  refine ⟨by decide, by decide, by decide, by decide, ?_⟩
  have h : ¬ (([] : List Int).length > 8 * 8) := by decide
  have hb : to_bits [] = none := by decide
  rw [symbols_hash, if_neg h, hb]
  rfl

/-- C22: the value hashed is injective on sequences of `1` and `-1` of the same length:
for one to sixty-four symbols equal `to_bits` values come from equal sequences, and for
more than sixty-four symbols equal `to_string` values come from equal sequences. -/
theorem prehash_injective (a b : List Int) (ha : ∀ x ∈ a, x = 1 ∨ x = -1)
    (hb : ∀ x ∈ b, x = 1 ∨ x = -1) (hlen : a.length = b.length) :
    (1 ≤ a.length → a.length ≤ 64 → to_bits a = to_bits b → a = b) ∧
      (64 < a.length → to_string a = to_string b → a = b) := by
  refine ⟨fun h1 h2 h => ?_, fun _ h => to_string_injective a b ha hb h⟩
  rw [to_bits_eq a h1 h2, to_bits_eq b (hlen ▸ h1) (hlen ▸ h2)] at h
  exact binary_value_injective a b ha hb hlen (Option.some.inj h)

/-- C22 at the sequence `1, -1`: the hypotheses hold there, `to_bits` gives `2`, and
the theorem applies. -/
theorem prehash_injective_witness :
    (∀ x ∈ ([1, -1] : List Int), x = 1 ∨ x = -1) ∧ 1 ≤ ([1, -1] : List Int).length ∧
      ([1, -1] : List Int).length ≤ 64 ∧ to_bits [1, -1] = some 2 ∧
      ([1, -1] : List Int) = [1, -1] :=
  ⟨by decide, by decide, by decide, by decide,
    (prehash_injective [1, -1] [1, -1] (by decide) (by decide) rfl).1 (by decide) (by decide)
      rfl⟩


/-! ### Rounding -/

theorem pow2_eq (e : Int) : pow2 e = (2 : ℚ) ^ e := by
  unfold pow2
  by_cases h : 0 ≤ e
  · obtain ⟨n, rfl⟩ := Int.eq_ofNat_of_zero_le h
    simp
  · obtain ⟨n, rfl⟩ := Int.exists_eq_neg_ofNat (le_of_lt (not_le.mp h))
    rw [if_neg h]
    simp [zpow_neg]

theorem pow2_pos (e : Int) : 0 < pow2 e := by
  rw [pow2_eq]
  positivity

theorem pow2_add (a b : Int) : pow2 (a + b) = pow2 a * pow2 b := by
  rw [pow2_eq, pow2_eq, pow2_eq, zpow_add₀ (by norm_num)]

/-- Checks of the arithmetic against values of IEEE 754 doubles: the literal `0.1`, the
sum `0.1 + 0.2`, which is not the literal `0.3`, the square root of `2`, the overflow
to infinity, the smallest positive double and its half, the conversion of integers above
`2^53`, the `stddev` of `1, 2`, whose square is `0.5000000000000001`, and the `stddev` of
fourteen frequencies `1/14`, which is `1.4401661021034318e-17`; in the last two the
inexact squares are the rounded products. -/
theorem arithmetic_checks :
    round64 (1 / 10) = Dbl.fin (3602879701896397 / 2 ^ 55) ∧
    Dbl.add (round64 (1 / 10)) (round64 (2 / 10)) = Dbl.fin (1351079888211149 / 2 ^ 52) ∧
    round64 (3 / 10) = Dbl.fin (5404319552844595 / 2 ^ 54) ∧
    Dbl.sqrt (Dbl.fin 2) = Dbl.fin (6369051672525773 / 2 ^ 52) ∧
    Dbl.mul (Dbl.fin (pow2 1023)) (Dbl.fin 2) = Dbl.pinf ∧
    round64 (pow2 1024 - pow2 970) = Dbl.pinf ∧
    round64 (pow2 1024 - pow2 970 - pow2 900) = Dbl.fin (pow2 1024 - pow2 971) ∧
    round64 (pow2 (-1074)) = Dbl.fin (pow2 (-1074)) ∧
    Dbl.div (Dbl.fin (pow2 (-1074))) (Dbl.fin 2) = Dbl.fin 0 ∧
    Dbl.of_int (2 ^ 53 + 1) = Dbl.fin (2 ^ 53) ∧
    Dbl.of_int (2 ^ 64 - 1) = Dbl.fin (2 ^ 64) ∧
    stddev (fun (a : ℚ) => round64 (a * a)) (to_doubles [1, 2])
      = Dbl.fin (6369051672525773 / 2 ^ 53) ∧
    Dbl.mul (Dbl.fin (6369051672525773 / 2 ^ 53)) (Dbl.fin (6369051672525773 / 2 ^ 53))
      = Dbl.fin (4503599627370497 / 2 ^ 53) ∧
    stddev (fun (a : ℚ) => round64 (a * a))
        (List.replicate 14 (Dbl.div (Dbl.of_int 1) (Dbl.of_int 14)))
      = Dbl.fin (2336803102412499 / 2 ^ 107) := by
  refine ⟨by decide!, by decide!, by decide!, by decide!, by decide!, by decide!, by decide!,
    by decide!, by decide!, by decide!, by decide!, by decide!, by decide!, by decide!⟩


/-! ### The square root is correctly rounded -/

theorem pow2_zero : pow2 0 = 1 := by
  rw [pow2_eq]
  simp

theorem pow2_neg (e : Int) : pow2 (-e) = 1 / pow2 e := by
  have h : pow2 (-e) * pow2 e = 1 := by
    rw [← pow2_add, neg_add_cancel, pow2_zero]
  have hp := pow2_pos e
  field_simp
  exact h

theorem int_add_of_fits (a b : Int) (h1 : -2 ^ 31 ≤ a + b) (h2 : a + b < 2 ^ 31) :
    int_add a b = some (a + b) := by
  unfold int_add
  rw [if_pos ⟨h1, h2⟩]

theorem count_eq_none_iff (t : Table) (s : List Int) :
    Table.count t s = none ↔ s ∉ Table.keys t := by
  induction t with
  | nil => simp [Table.count, Table.keys]
  | cons e rest ih =>
    obtain ⟨k, v⟩ := e
    simp only [Table.keys] at ih
    by_cases hk : k = s
    · simp [Table.count, Table.keys, hk]
    · have hk2 : ¬ s = k := fun h => hk h.symm
      simp [Table.count, Table.keys, hk, hk2, ih]

theorem total_cons (e : List Int × Int) (t : Table) :
    Table.total (e :: t) = e.2 + Table.total t := by
  have h : ∀ (l : List Int) (a : Int), l.foldl (fun acc v => acc + v) a
      = a + l.foldl (fun acc v => acc + v) 0 := by
    intro l
    induction l with
    | nil => intro a; simp
    | cons x rest ih =>
      intro a
      simp only [List.foldl_cons]
      rw [ih (a + x), ih (0 + x)]
      ring
  simp only [Table.total, List.map_cons, List.foldl_cons]
  rw [h]
  ring

theorem total_eq_sum (t : Table) : Table.total t = (t.map Prod.snd).sum := by
  induction t with
  | nil => rfl
  | cons e rest ih => rw [total_cons, List.map_cons, List.sum_cons, ih]

/-- The keys of a table survive `v += 1`, whatever key it is applied to. -/
theorem keys_increment (t t1 : Table) (s : List Int) (h : Table.increment t s = some t1) :
    Table.keys t1 = Table.keys t := by
  induction t generalizing t1 with
  | nil =>
    simp only [Table.increment, Option.some.injEq] at h
    rw [← h]
  | cons e rest ih =>
    obtain ⟨k, v⟩ := e
    by_cases hk : k = s
    · simp only [Table.increment, if_pos hk, Option.map_eq_some'] at h
      obtain ⟨v1, _, h2⟩ := h
      rw [← h2]
      rfl
    · simp only [Table.increment, if_neg hk, Option.map_eq_some'] at h
      obtain ⟨r, h1, h2⟩ := h
      rw [← h2]
      simp only [Table.keys, List.map_cons]
      have := ih r h1
      simp only [Table.keys] at this
      rw [this]

/-- Statement `v += 1` on a present key whose count is below the largest `int`. -/
theorem increment_spec (t : Table) (s : List Int) (c : Int) (h : Table.count t s = some c)
    (h1 : -2 ^ 31 ≤ c + 1) (h2 : c + 1 < 2 ^ 31) :
    ∃ t1, Table.increment t s = some t1 ∧ Table.count t1 s = some (c + 1) ∧
      (∀ k, k ≠ s → Table.count t1 k = Table.count t k) ∧
      Table.total t1 = Table.total t + 1 ∧ t1.length = t.length ∧
      ((∀ kv ∈ t, 0 ≤ kv.2) → ∀ kv ∈ t1, 0 ≤ kv.2) := by
  induction t with
  | nil => simp [Table.count] at h
  | cons e rest ih =>
    obtain ⟨k, v⟩ := e
    by_cases hk : k = s
    · simp only [Table.count, if_pos hk, Option.some.injEq] at h
      subst h
      refine ⟨(k, v + 1) :: rest, ?_, ?_, ?_, ?_, ?_, ?_⟩
      · simp only [Table.increment, if_pos hk, int_add_of_fits v 1 h1 h2, Option.map_some']
      · simp only [Table.count, if_pos hk]
      · intro k0 hk0
        have : ¬ k = k0 := fun hh => hk0 (hh.symm.trans hk)
        simp only [Table.count, if_neg this]
      · rw [total_cons, total_cons]
        ring
      · rfl
      · intro hnn kv hkv
        rcases List.mem_cons.mp hkv with rfl | hin
        · have := hnn (k, v) (List.mem_cons_self _ _)
          simp only at this ⊢
          omega
        · exact hnn kv (List.mem_cons_of_mem _ hin)
    · simp only [Table.count, if_neg hk] at h
      obtain ⟨r, hr1, hr2, hr3, hr4, hr5, hr6⟩ := ih h
      refine ⟨(k, v) :: r, ?_, ?_, ?_, ?_, ?_, ?_⟩
      · simp only [Table.increment, if_neg hk, hr1, Option.map_some']
      · simp only [Table.count, if_neg hk, hr2]
      · intro k0 hk0
        by_cases hkk : k = k0
        · simp only [Table.count, if_pos hkk]
        · simp only [Table.count, if_neg hkk, hr3 k0 hk0]
      · rw [total_cons, total_cons, hr4]
        ring
      · simp only [List.length_cons, hr5]
      · intro hnn kv hkv
        rcases List.mem_cons.mp hkv with rfl | hin
        · exact hnn (k, v) (List.mem_cons_self _ _)
        · exact hr6 (fun kv0 h0 => hnn kv0 (List.mem_cons_of_mem _ h0)) kv hin

/-- Statement `v += 1` on a count that is the largest `int` is a signed overflow. -/
theorem increment_overflow (t : Table) (s : List Int) (h : Table.count t s = some (2 ^ 31 - 1)) :
    Table.increment t s = none := by
  induction t with
  | nil => simp [Table.count] at h
  | cons e rest ih =>
    obtain ⟨k, v⟩ := e
    by_cases hk : k = s
    · simp only [Table.count, if_pos hk, Option.some.injEq] at h
      subst h
      have : int_add (2 ^ 31 - 1) 1 = none := by decide
      simp only [Table.increment, if_pos hk, this, Option.map_none']
    · simp only [Table.count, if_neg hk] at h
      simp only [Table.increment, if_neg hk, ih h, Option.map_none']

theorem table_fold_undefined (hash : List Int → Option Nat) (t : Table) (s : List Int)
    (hh : hash s = none) : table_fold hash t s = none := by
  simp only [table_fold, Table.insert, hh]

theorem table_fold_present (hash : List Int → Option Nat) (t : Table) (s : List Int)
    (h0 : Nat) (c : Int) (hh : hash s = some h0) (h : Table.count t s = some c) :
    table_fold hash t s = Table.increment t s := by
  simp [table_fold, Table.insert, hh, h]

theorem table_fold_absent (hash : List Int → Option Nat) (t : Table) (s : List Int)
    (h0 : Nat) (hh : hash s = some h0) (h : Table.count t s = none) :
    table_fold hash t s = some ((s, 1) :: t) := by
  simp [table_fold, Table.insert, hh, h]

/-- Folding one sequence into the table when its hash is defined and its count is below
the largest `int`: a key that is present has its count raised by one, an absent key is
added with count `1`, the count of every other key is unchanged, no key is removed, and
the keys stay distinct. -/
theorem table_fold_defined (hash : List Int → Option Nat) (t : Table) (s : List Int)
    (h0 : Nat) (hh : hash s = some h0)
    (hfit : ∀ c, Table.count t s = some c → -2 ^ 31 ≤ c + 1 ∧ c + 1 < 2 ^ 31) :
    ∃ t1, table_fold hash t s = some t1 ∧
    (∀ c, Table.count t s = some c → Table.count t1 s = some (c + 1)) ∧
    (Table.count t s = none → Table.count t1 s = some 1) ∧
    (∀ k, k ≠ s → Table.count t1 k = Table.count t k) ∧
    (∀ k, k ∈ Table.keys t → k ∈ Table.keys t1) ∧
    (∀ k, k ∈ Table.keys t1 → k = s ∨ k ∈ Table.keys t) ∧
    ((Table.keys t).Nodup → (Table.keys t1).Nodup) := by
  cases h : Table.count t s with
  | some c =>
    obtain ⟨t1, e1, e2, e3, _, _, _⟩ := increment_spec t s c h (hfit c h).1 (hfit c h).2
    have hk := keys_increment t t1 s e1
    rw [table_fold_present hash t s h0 c hh h]
    refine ⟨t1, e1, ?_, ?_, e3, ?_, ?_, ?_⟩
    · intro c0 hc0
      rw [← Option.some.inj hc0]
      exact e2
    · intro hn
      cases hn
    · intro k hk0
      rwa [hk]
    · intro k hk0
      rw [hk] at hk0
      exact Or.inr hk0
    · intro hnd
      rwa [hk]
  | none =>
    rw [table_fold_absent hash t s h0 hh h]
    refine ⟨(s, 1) :: t, rfl, ?_, ?_, ?_, ?_, ?_, ?_⟩
    · intro c0 hc0
      cases hc0
    · intro _
      simp [Table.count]
    · intro k hk
      have : ¬ s = k := fun e => hk e.symm
      simp [Table.count, this]
    · intro k hk
      simp only [Table.keys, List.map_cons, List.mem_cons]
      exact Or.inr hk
    · intro k hk
      simpa [Table.keys] using hk
    · intro hnd
      have hnot := (count_eq_none_iff t s).mp h
      simp only [Table.keys, List.map_cons, List.nodup_cons]
      exact ⟨hnot, hnd⟩

/-- C10 (code defect at the empty key): folding a sequence into the table is not defined
for every sequence that `run_iteration` folds. For `n = 0` the sequence is empty
(`cut_and_splice` of `symbols 0`); `table.insert` hashes it, the hash reads position `0`
of an empty vector, and the fold is undefined, whatever the table. A second undefined
case: a key whose count is the largest `int` cannot be counted once more. -/
theorem table_fold_empty_key (hash_string : String → Nat) (hash_size : Nat → Nat)
    (t : Table) :
    cut_and_splice (symbols 0) = some [] ∧
    symbols_hash hash_string hash_size [] = none ∧
    Table.insert (symbols_hash hash_string hash_size) t [] 1 = none ∧
    table_fold (symbols_hash hash_string hash_size) t [] = none ∧
    table_fold (symbols_hash hash_string hash_size) [([1, -1], 2 ^ 31 - 1)] [1, -1] = none := by
  have hlen : ¬ (([] : List Int).length > 8 * 8) := by decide
  have hb : to_bits [] = none := by decide
  have hnil : symbols_hash hash_string hash_size [] = none := by
    rw [symbols_hash, if_neg hlen, hb]
    rfl
  have hlen2 : ¬ (([1, -1] : List Int).length > 8 * 8) := by decide
  have hb2 : to_bits [1, -1] = some 2 := by decide
  have hpair : symbols_hash hash_string hash_size [1, -1] = some (hash_size 2) := by
    rw [symbols_hash, if_neg hlen2, hb2]
    rfl
  refine ⟨by decide, hnil, ?_, table_fold_undefined _ t [] hnil, ?_⟩
  · simp only [Table.insert, hnil]
  · rw [table_fold_present _ _ _ _ (2 ^ 31 - 1) hpair (by simp [Table.count])]
    exact increment_overflow _ _ (by simp [Table.count])


/-! ### One batch -/

/-- In a table of non-negative counts every count is at most the sum of the counts. -/
theorem count_le_total (t : Table) (hnn : ∀ kv ∈ t, 0 ≤ kv.2) (s : List Int) (c : Int)
    (h : Table.count t s = some c) : 0 ≤ c ∧ c ≤ Table.total t := by
  induction t with
  | nil => simp [Table.count] at h
  | cons e rest ih =>
    obtain ⟨k, v⟩ := e
    have hv : 0 ≤ v := hnn (k, v) (List.mem_cons_self _ _)
    have hrest : ∀ kv ∈ rest, 0 ≤ kv.2 := fun kv hkv => hnn kv (List.mem_cons_of_mem _ hkv)
    have htot : 0 ≤ Table.total rest := by
      rw [total_eq_sum]
      apply List.sum_nonneg
      intro x hx
      obtain ⟨kv, hkv, rfl⟩ := List.mem_map.mp hx
      exact hrest kv hkv
    rw [total_cons]
    by_cases hk : k = s
    · simp only [Table.count, if_pos hk, Option.some.injEq] at h
      subst h
      simp only
      omega
    · simp only [Table.count, if_neg hk] at h
      have := ih hrest h
      simp only
      omega

/-- Folding one sequence whose hash is defined, into a table of non-negative counts
whose sum stays below the largest `int`: the fold is defined, the sum of the counts
grows by one, and no entry is lost. -/
theorem table_fold_some (hash : List Int → Option Nat) (t : Table) (s : List Int)
    (h0 : Nat) (hh : hash s = some h0) (hnn : ∀ kv ∈ t, 0 ≤ kv.2)
    (hfit : Table.total t + 1 < 2 ^ 31) :
    ∃ t1, table_fold hash t s = some t1 ∧ Table.total t1 = Table.total t + 1 ∧
      (∀ kv ∈ t1, 0 ≤ kv.2) := by
  cases h : Table.count t s with
  | some c =>
    have hc := count_le_total t hnn s c h
    obtain ⟨t1, e1, _, _, e4, _, e6⟩ := increment_spec t s c h (by omega) (by omega)
    rw [table_fold_present hash t s h0 c hh h]
    exact ⟨t1, e1, e4, e6 hnn⟩
  | none =>
    rw [table_fold_absent hash t s h0 hh h]
    refine ⟨(s, 1) :: t, rfl, ?_, ?_⟩
    · rw [total_cons]
      ring
    · intro kv hkv
      rcases List.mem_cons.mp hkv with rfl | hin
      · exact Int.one_nonneg
      · exact hnn kv hin

/-- Folding a batch of sequences whose hashes are defined, into a table of non-negative
counts whose sum plus the batch size stays below the largest `int`: every fold is
defined and the sum of the counts grows by the batch size. -/
theorem table_fold_all_some (hash : List Int → Option Nat) (l : List (List Int)) (t : Table)
    (hh : ∀ s ∈ l, ∃ h0, hash s = some h0) (hnn : ∀ kv ∈ t, 0 ≤ kv.2)
    (hfit : Table.total t + l.length < 2 ^ 31) :
    ∃ t1, table_fold_all hash t l = some t1 ∧ Table.total t1 = Table.total t + l.length ∧
      (∀ kv ∈ t1, 0 ≤ kv.2) := by
  induction l generalizing t with
  | nil => exact ⟨t, rfl, by simp, hnn⟩
  | cons s rest ih =>
    obtain ⟨h0, hs⟩ := hh s (List.mem_cons_self _ _)
    simp only [List.length_cons, Nat.cast_add, Nat.cast_one] at hfit
    obtain ⟨t2, e1, e2, e3⟩ := table_fold_some hash t s h0 hs hnn (by omega)
    obtain ⟨t1, f1, f2, f3⟩ := ih t2 (fun s0 h1 => hh s0 (List.mem_cons_of_mem _ h1)) e3
      (by omega)
    refine ⟨t1, ?_, ?_, f3⟩
    · simp only [table_fold_all, e1, f1]
    · rw [f2, e2]
      simp only [List.length_cons, Nat.cast_add, Nat.cast_one]
      ring

/-- A fold of a batch that contains a sequence whose hash is undefined is undefined. -/
theorem table_fold_all_undefined (hash : List Int → Option Nat) (l : List (List Int))
    (t : Table) (s : List Int) (hs : s ∈ l) (hh : hash s = none) :
    table_fold_all hash t l = none := by
  induction l generalizing t with
  | nil => cases hs
  | cons s0 rest ih =>
    simp only [table_fold_all]
    split
    · rfl
    · rename_i t2 h2
      rcases List.mem_cons.mp hs with rfl | hin
      · rw [table_fold_undefined hash t s hh] at h2
        cases h2
      · exact ih t2 hin

/-- The entries are visited in some order: a permutation of the table. -/
theorem iterate_perm (pick : Nat) (t : Table) : (Table.iterate pick t).Perm t := by
  unfold Table.iterate
  by_cases h : pick < (List.permutations t).length
  · rw [List.getD_eq_getElem _ _ h]
    exact List.mem_permutations.mp (List.getElem_mem h)
  · rw [List.getD_eq_default _ _ (not_lt.mp h)]

/-- The `int` sum of non-negative values whose total is below `2^31` is their sum. -/
theorem accumulate_int_of_nonneg (l : List Int) (init : Int) (h0 : 0 ≤ init)
    (hnn : ∀ v ∈ l, 0 ≤ v) (hfit : init + l.sum < 2 ^ 31) :
    accumulate_int init l = some (init + l.sum) := by
  induction l generalizing init with
  | nil => simp [accumulate_int]
  | cons v rest ih =>
    have hv : 0 ≤ v := hnn v (List.mem_cons_self _ _)
    have hrest : ∀ x ∈ rest, 0 ≤ x := fun x hx => hnn x (List.mem_cons_of_mem _ hx)
    have hsum : 0 ≤ rest.sum := List.sum_nonneg hrest
    rw [List.sum_cons] at hfit
    simp only [accumulate_int, int_add_of_fits init v (by omega) (by omega)]
    rw [ih (init + v) (by omega) hrest (by omega), List.sum_cons]
    congr 1
    ring

/-- Value of `std::accumulate(vals.begin(), vals.end(), 0)` on a table of non-negative
counts whose sum is below `2^31`, in whatever order the table is visited. -/
theorem accumulate_iterate (pick : Nat) (t : Table) (hnn : ∀ kv ∈ t, 0 ≤ kv.2)
    (hfit : Table.total t < 2 ^ 31) :
    accumulate_int 0 ((Table.iterate pick t).map Prod.snd) = some (Table.total t) := by
  have hp := iterate_perm pick t
  have hsum : ((Table.iterate pick t).map Prod.snd).sum = Table.total t := by
    rw [total_eq_sum]
    exact (hp.map Prod.snd).sum_eq
  have hnn2 : ∀ v ∈ (Table.iterate pick t).map Prod.snd, 0 ≤ v := by
    intro v hv
    obtain ⟨kv, hkv, rfl⟩ := List.mem_map.mp hv
    exact hnn kv (hp.mem_iff.mp hkv)
  rw [accumulate_int_of_nonneg _ 0 (le_refl 0) hnn2 (by rw [hsum]; simpa using hfit), hsum]
  simp

/-- With admissible draws every symbol of a batch is scrambled and spliced, and each
result has `2 * n` elements. -/
theorem balance_all_some (bias : Bool) (uniform binomial : Nat → Nat → Nat) (n ns j0 : Nat)
    (hdraw : ∀ j i, j0 ≤ j → j < j0 + ns → 1 ≤ i → i < 2 * n + 1 →
      dist bias (uniform j) (binomial j) i ≤ i) :
    ∃ bs, balance_all bias uniform binomial j0 (generate_n n ns) = some bs ∧ bs.length = ns ∧
      ∀ b ∈ bs, b.length = 2 * n := by
  induction ns generalizing j0 with
  | zero => exact ⟨[], rfl, rfl, fun b hb => by cases hb⟩
  | succ ns ih =>
    have hne : symbols n ≠ [] := by
      intro h
      have := congrArg List.length h
      rw [symbols_length] at this
      simp at this
    obtain ⟨out, h1, h2, _⟩ := scramble_some bias (uniform j0) (binomial j0) (symbols n) hne
      (fun i hi1 hi2 => hdraw j0 i (le_refl _) (by omega) hi1 (by rw [symbols_length] at hi2; exact hi2))
    have hout : out ≠ [] := by
      intro h
      rw [h, symbols_length] at h2
      simp at h2
    obtain ⟨bs, h3, h4, h5⟩ := ih (j0 + 1)
      (fun j i hj1 hj2 hi1 hi2 => hdraw j i (by omega) (by omega) hi1 hi2)
    have hcs := cut_and_splice_eq out hout
    have hlen := cut_and_splice_length out _ hcs
    refine ⟨(out.drop (lowest_valley out + 1) ++ out.take (lowest_valley out)) :: bs, ?_,
      by simp [h4], ?_⟩
    · simp only [generate_n, List.replicate_succ, balance_all, h1, Option.some_bind, hcs]
      simp only [generate_n] at h3
      rw [h3]
      rfl
    · intro b hb
      rcases List.mem_cons.mp hb with rfl | hin
      · rw [h2, symbols_length] at hlen
        omega
      · exact h5 b hin

/-- For `n = 0` every symbol of a batch is the single `-1`, which is spliced to the empty
sequence, whatever the draws. -/
theorem balance_all_zero (bias : Bool) (uniform binomial : Nat → Nat → Nat) (ns j0 : Nat) :
    balance_all bias uniform binomial j0 (generate_n 0 ns) = some (List.replicate ns []) := by
  induction ns generalizing j0 with
  | zero => rfl
  | succ ns ih =>
    have h1 : scramble bias (uniform j0) (binomial j0) (symbols 0) = some [-1] := rfl
    have h2 : cut_and_splice [-1] = some [] := by decide
    simp only [generate_n, List.replicate_succ, balance_all, h1, Option.some_bind, h2]
    have := ih (j0 + 1)
    simp only [generate_n] at this
    rw [this]
    rfl

/-- What `run_iteration` returns once its steps are known: the spliced batch, the table
after the fold, the counts in the order visited and their `int` sum. -/
theorem run_iteration_eq (hash_string : String → Nat) (hash_size : Nat → Nat) (inexact : ℚ → Dbl) (pick : Nat)
    (uniform binomial : Nat → Nat → Nat) (table : Table) (n ns : Nat) (bias : Bool)
    (syms : List (List Int)) (table1 : Table) (vals : List Int) (nsyms : Int)
    (h1 : balance_all bias uniform binomial 0 (generate_n n ns) = some syms)
    (h2 : table_fold_all (symbols_hash hash_string hash_size) table syms = some table1)
    (h3 : (Table.iterate pick table1).map Prod.snd = vals)
    (h4 : accumulate_int 0 vals = some nsyms) :
    run_iteration hash_string hash_size inexact pick uniform binomial table n ns bias
      = some ((stddev inexact
          (vals.map (fun (v : Int) => Dbl.div (Dbl.of_int v) (Dbl.of_int nsyms))),
          nsyms), table1) := by
  simp only [run_iteration, h1, h2, h3, h4]

/-- With `n ≥ 1` or an empty batch, admissible draws, non-negative counts and a sum of
counts that stays below the largest `int`, `run_iteration` returns; the total it
returns is the sum of the counts of the table it leaves, which is the old sum plus
`ns`. -/
theorem run_iteration_some (hash_string : String → Nat) (hash_size : Nat → Nat) (inexact : ℚ → Dbl) (pick : Nat)
    (uniform binomial : Nat → Nat → Nat) (table : Table) (n ns : Nat) (bias : Bool)
    (hn : 1 ≤ n ∨ ns = 0)
    (hdraw : ∀ j i, j < ns → 1 ≤ i → i < 2 * n + 1 → dist bias (uniform j) (binomial j) i ≤ i)
    (hnn : ∀ kv ∈ table, 0 ≤ kv.2) (hfit : Table.total table + ns < 2 ^ 31) :
    ∃ (sdev : Dbl) (t1 : Table),
      run_iteration hash_string hash_size inexact pick uniform binomial table n ns bias
        = some ((sdev, Table.total t1), t1) ∧
      Table.total t1 = Table.total table + ns ∧ (∀ kv ∈ t1, 0 ≤ kv.2) := by
  obtain ⟨bs, h1, h2, h3⟩ := balance_all_some bias uniform binomial n ns 0
    (fun j i _ hj hi1 hi2 => hdraw j i (by omega) hi1 hi2)
  have hhash : ∀ s ∈ bs, ∃ h0, symbols_hash hash_string hash_size s = some h0 := by
    intro s hs
    apply symbols_hash_some
    intro hnil
    have hl := h3 s hs
    rw [hnil] at hl
    simp only [List.length_nil] at hl
    rcases hn with hn | hn
    · omega
    · rw [hn] at h2
      rw [List.length_eq_zero.mp h2] at hs
      cases hs
  obtain ⟨t1, f1, f2, f3⟩ := table_fold_all_some (symbols_hash hash_string hash_size) bs table
    hhash hnn (by rw [h2]; exact hfit)
  rw [h2] at f2
  have hacc := accumulate_iterate pick t1 f3 (by rw [f2]; omega)
  exact ⟨_, t1, run_iteration_eq hash_string hash_size inexact pick uniform binomial table n ns
    bias bs t1 _ _ h1 f1 rfl hacc, f2, f3⟩

/-- C16 (code defect at `n = 0`): `run_iteration` does not return a total for every `n`.
With `n = 0` and a batch of one sequence or more, whatever the table, the draws, the
two library hashes and the visiting order, every sequence of the batch is spliced to
the empty sequence, the first `table.insert` hashes it out of range, and the call is
undefined. -/
theorem run_iteration_undefined_at_zero (hash_string : String → Nat) (hash_size : Nat → Nat)
    (inexact : ℚ → Dbl) (pick : Nat) (uniform binomial : Nat → Nat → Nat) (table : Table) (ns : Nat)
    (bias : Bool) :
    balance_all bias uniform binomial 0 (generate_n 0 (ns + 1))
      = some (List.replicate (ns + 1) []) ∧
    table_fold (symbols_hash hash_string hash_size) table [] = none ∧
    run_iteration hash_string hash_size inexact pick uniform binomial table 0 (ns + 1) bias = none := by
  have hlen : ¬ (([] : List Int).length > 8 * 8) := by decide
  have hb : to_bits [] = none := by decide
  have hnil : symbols_hash hash_string hash_size [] = none := by
    rw [symbols_hash, if_neg hlen, hb]
    rfl
  have hbal := balance_all_zero bias uniform binomial (ns + 1) 0
  refine ⟨hbal, table_fold_undefined _ table [] hnil, ?_⟩
  have hfold := table_fold_all_undefined (symbols_hash hash_string hash_size)
    (List.replicate (ns + 1) []) table [] (by simp [List.replicate_succ]) hnil
  simp only [run_iteration, hbal, hfold]

theorem gt_nan_left (b : Dbl) : Dbl.gt Dbl.nan b = false := by
  cases b <;> rfl

theorem nearest_one : nearest 1 = 1 := by decide!

/-- A run that returns has made `c ≥ 1` further calls with `n * 2 ≤ iters + 2 * c ≤
max_iters`, and the standard deviation it returns is not greater than the threshold
of the final table. -/
theorem convergence_loop_returned (hash_string : String → Nat) (hash_size : Nat → Nat)
    (inexact : ℚ → Dbl) (pick : Nat → Nat) (uniform binomial : Nat → Nat → Nat → Nat) (n ns : Nat) (eps : Dbl)
    (max_iters : Nat) (bias : Bool) (fuel : Nat) (table : Table) (iters calls : Nat)
    (sdev : Dbl) (nsyms : Int) (t1 : Table) (c1 : Nat)
    (h : convergence_loop hash_string hash_size inexact pick uniform binomial n ns eps max_iters bias
      fuel table iters calls = some ⟨Outcome.returned sdev nsyms, t1, c1⟩) :
    Dbl.gt sdev (threshold eps t1) = false ∧
    ∃ c, 1 ≤ c ∧ c1 = calls + c ∧ n * 2 ≤ iters + 2 * c ∧ iters + 2 * c ≤ max_iters := by
  induction fuel generalizing table iters calls with
  | zero => simp [convergence_loop] at h
  | succ fuel ih =>
    simp only [convergence_loop] at h
    split at h
    · cases h
    · rename_i sd ns1 tb hrun
      split at h
      · cases h
      · rename_i hmax
        split at h
        · obtain ⟨h1, c, hc1, hc2, hc3, hc4⟩ := ih tb (iters + 1 + 1) (calls + 1) h
          exact ⟨h1, c + 1, by omega, by omega, by omega, by omega⟩
        · rename_i hcond
          simp only [Bool.or_eq_true, decide_eq_true_eq, not_or, Bool.not_eq_true, not_lt] at hcond
          simp only [Option.some.injEq, Run.mk.injEq, Outcome.returned.injEq] at h
          obtain ⟨⟨h1, h2⟩, h3, h4⟩ := h
          subst h1 h3 h4
          exact ⟨hcond.1, 1, by omega, rfl, by omega, by omega⟩

/-- A run that throws has made `c ≥ 1` further calls, the last of which is the first
with `iters + 2 * c > max_iters`. -/
theorem convergence_loop_thrown (hash_string : String → Nat) (hash_size : Nat → Nat)
    (inexact : ℚ → Dbl) (pick : Nat → Nat) (uniform binomial : Nat → Nat → Nat → Nat) (n ns : Nat) (eps : Dbl)
    (max_iters : Nat) (bias : Bool) (fuel : Nat) (table : Table) (iters calls : Nat)
    (t1 : Table) (c1 : Nat) (hi : iters ≤ max_iters)
    (h : convergence_loop hash_string hash_size inexact pick uniform binomial n ns eps max_iters bias
      fuel table iters calls = some ⟨Outcome.thrown, t1, c1⟩) :
    ∃ c, 1 ≤ c ∧ c1 = calls + c ∧ max_iters < iters + 2 * c ∧ iters + 2 * (c - 1) ≤ max_iters := by
  induction fuel generalizing table iters calls with
  | zero => simp [convergence_loop] at h
  | succ fuel ih =>
    simp only [convergence_loop] at h
    split at h
    · cases h
    · rename_i sd ns1 tb hrun
      split at h
      · rename_i hmax
        simp only [Option.some.injEq, Run.mk.injEq, true_and] at h
        exact ⟨1, by omega, by omega, by omega, by omega⟩
      · rename_i hmax
        split at h
        · obtain ⟨c, hc1, hc2, hc3, hc4⟩ := ih tb (iters + 1 + 1) (calls + 1) (by omega) h
          exact ⟨c + 1, by omega, by omega, by omega, by omega⟩
        · cases h

/-- With `n ≥ 1` or empty batches, admissible draws in every call, non-negative counts
and a sum of counts that stays below the largest `int` for `max_iters + 1` batches,
`run_to_convergence` ends: it returns or it throws. -/
theorem run_to_convergence_some (hash_string : String → Nat) (hash_size : Nat → Nat)
    (inexact : ℚ → Dbl) (pick : Nat → Nat) (uniform binomial : Nat → Nat → Nat → Nat) (table : Table)
    (n ns : Nat) (eps : Dbl) (max_iters : Nat) (bias : Bool) (hn : 1 ≤ n ∨ ns = 0)
    (hdraw : ∀ c j i, j < ns → 1 ≤ i → i < 2 * n + 1 →
      dist bias (uniform c j) (binomial c j) i ≤ i)
    (hnn : ∀ kv ∈ table, 0 ≤ kv.2)
    (hfit : Table.total table + ((max_iters + 1) * ns : Nat) < 2 ^ 31) :
    ∃ r, run_to_convergence hash_string hash_size inexact pick uniform binomial table n ns eps
      max_iters bias = some r := by
  have key : ∀ (fuel : Nat) (t : Table) (iters calls : Nat), max_iters + 1 ≤ iters + fuel →
      0 < fuel → (∀ kv ∈ t, 0 ≤ kv.2) → Table.total t + ((fuel * ns : Nat) : Int) < 2 ^ 31 →
      ∃ r, convergence_loop hash_string hash_size inexact pick uniform binomial n ns eps max_iters
        bias fuel t iters calls = some r := by
    intro fuel
    induction fuel with
    | zero => intro t iters calls _ h0; omega
    | succ fuel ih =>
      intro t iters calls hf _ hnn1 hfit1
      have hsplit : (((fuel + 1) * ns : Nat) : Int) = ((fuel * ns : Nat) : Int) + (ns : Int) := by
        push_cast
        ring
      rw [hsplit] at hfit1
      have hfn : (0 : Int) ≤ ((fuel * ns : Nat) : Int) := Int.natCast_nonneg _
      obtain ⟨sdev, t1, h2, h3, h4⟩ := run_iteration_some hash_string hash_size inexact (pick calls)
        (uniform calls) (binomial calls) t n ns bias hn (hdraw calls) hnn1 (by omega)
      simp only [convergence_loop, h2]
      split
      · exact ⟨_, rfl⟩
      · rename_i hmax
        split
        · exact ih _ _ _ (by omega) (by omega) h4 (by rw [h3]; omega)
        · exact ⟨_, rfl⟩
  exact key (max_iters + 1) table 0 0 (by omega) (by omega) hnn hfit


/-! ### Claims on the batch and the convergence loop -/

/-- A fold depends on the hash only through the keys for which it is defined. -/
theorem table_fold_all_congr (hash1 hash2 : List Int → Option Nat) (l : List (List Int))
    (t : Table) (h : ∀ s ∈ l, (hash1 s).isSome = (hash2 s).isSome) :
    table_fold_all hash1 t l = table_fold_all hash2 t l := by
  induction l generalizing t with
  | nil => rfl
  | cons s rest ih =>
    have hs := h s (List.mem_cons_self _ _)
    have hfold : table_fold hash1 t s = table_fold hash2 t s := by
      cases h1 : hash1 s with
      | none =>
        cases h2 : hash2 s with
        | none => simp only [table_fold, Table.insert, h1, h2]
        | some b => simp [h1, h2] at hs
      | some a =>
        cases h2 : hash2 s with
        | none => simp [h1, h2] at hs
        | some b => simp only [table_fold, Table.insert, h1, h2]
    simp only [table_fold_all, hfold]
    cases table_fold hash2 t s with
    | none => rfl
    | some t1 => exact ih t1 (fun s0 h0 => h s0 (List.mem_cons_of_mem _ h0))

/-- On non-empty sequences the fold does not depend on the two library hashes. -/
theorem table_fold_all_nonempty (hash_string : String → Nat) (hash_size : Nat → Nat)
    (l : List (List Int)) (t : Table) (hl : ∀ s ∈ l, s ≠ []) :
    table_fold_all (symbols_hash hash_string hash_size) t l
      = table_fold_all (fun _ => some 0) t l := by
  apply table_fold_all_congr
  intro s hs
  obtain ⟨h0, hh⟩ := symbols_hash_some hash_string hash_size s (hl s hs)
  rw [hh]
  rfl

/-- When all counts are equal, the counts are visited as that many copies of the count,
whatever the order. -/
theorem iterate_vals_const (pick : Nat) (t : Table) (c : Int) (h : ∀ kv ∈ t, kv.2 = c) :
    (Table.iterate pick t).map Prod.snd = List.replicate t.length c := by
  have hp := iterate_perm pick t
  rw [List.eq_replicate_iff]
  refine ⟨by rw [List.length_map, hp.length_eq], ?_⟩
  intro v hv
  obtain ⟨kv, hkv, rfl⟩ := List.mem_map.mp hv
  exact h kv (hp.mem_iff.mp hkv)

/-- When the square is exact, `std::pow(x, 2)` does not depend on the library. -/
theorem pow_two_of_exact (i1 i2 : ℚ → Dbl) (d : Dbl) (h : Dbl.square_exact d = true) :
    Dbl.pow_two i1 d = Dbl.pow_two i2 d := by
  cases d with
  | fin a =>
    simp only [Dbl.square_exact, decide_eq_true_eq] at h
    simp only [Dbl.pow_two, if_pos h]
  | pinf => rfl
  | ninf => rfl
  | nan => rfl

/-- When every squared difference is exact, `variance` does not depend on the library. -/
theorem variance_of_exact (i1 i2 : ℚ → Dbl) (lst : List Dbl)
    (h : lst.all (fun (n : Dbl) => Dbl.square_exact
      (Dbl.sub n (Dbl.div (accumulate lst) (Dbl.of_int (lst.length : Int))))) = true) :
    variance i1 lst = variance i2 lst := by
  have hmap : lst.map (fun (n : Dbl) => Dbl.pow_two i1
      (Dbl.sub n (Dbl.div (accumulate lst) (Dbl.of_int (lst.length : Int)))))
      = lst.map (fun (n : Dbl) => Dbl.pow_two i2
      (Dbl.sub n (Dbl.div (accumulate lst) (Dbl.of_int (lst.length : Int))))) := by
    apply List.map_congr_left
    intro n hn
    exact pow_two_of_exact i1 i2 _ (List.all_eq_true.mp h n hn)
  simp only [variance, hmap]

/-- When every squared difference is exact, `stddev` does not depend on the library. -/
theorem stddev_of_exact (i1 i2 : ℚ → Dbl) (lst : List Dbl)
    (h : lst.all (fun (n : Dbl) => Dbl.square_exact
      (Dbl.sub n (Dbl.div (accumulate lst) (Dbl.of_int (lst.length : Int))))) = true) :
    stddev i1 lst = stddev i2 lst := by
  rw [stddev, stddev, variance_of_exact i1 i2 lst h]

/-- The batch of the examples for `n = 2`, `ns = 2`. -/
theorem example_batch_two (c : Nat) :
    balance_all false (example_draws c) (example_draws c) 0 (generate_n 2 2)
      = some [[1, 1, -1, -1], [1, -1, 1, -1]] := by
  change balance_all false (example_draws 0) (example_draws 0) 0 (generate_n 2 2) = _
  decide

/-- The batch of the examples for `n = 1`, `ns = 3`. -/
theorem example_batch_one (c : Nat) :
    balance_all false (example_draws c) (example_draws c) 0 (generate_n 1 3)
      = some [[1, -1], [1, -1], [1, -1]] := by
  change balance_all false (example_draws 0) (example_draws 0) 0 (generate_n 1 3) = _
  decide

/-- First call of the examples for `n = 2`, `ns = 2` on an empty table. -/
theorem example_call_one (hash_string : String → Nat) (hash_size : Nat → Nat) (inexact : ℚ → Dbl) (pick c : Nat) :
    run_iteration hash_string hash_size inexact pick (example_draws c) (example_draws c) [] 2 2 false
      = some ((Dbl.fin 0, 2), [([1, -1, 1, -1], 1), ([1, 1, -1, -1], 1)]) := by
  have h2 : table_fold_all (symbols_hash hash_string hash_size) []
      [[1, 1, -1, -1], [1, -1, 1, -1]] = some [([1, -1, 1, -1], 1), ([1, 1, -1, -1], 1)] := by
    rw [table_fold_all_nonempty hash_string hash_size _ _ (by decide)]
    decide
  have h3 := iterate_vals_const pick [([1, -1, 1, -1], 1), ([1, 1, -1, -1], 1)] 1 (by decide)
  have h5 : stddev inexact ((List.replicate
      ([([1, -1, 1, -1], 1), ([1, 1, -1, -1], 1)] : Table).length (1 : Int)).map
      (fun (v : Int) => Dbl.div (Dbl.of_int v) (Dbl.of_int 2))) = Dbl.fin 0 := by
    rw [stddev_of_exact inexact (fun _ => Dbl.nan) _ (by decide!)]
    decide!
  rw [run_iteration_eq hash_string hash_size inexact pick _ _ [] 2 2 false _ _ _ 2
    (example_batch_two c) h2 h3 (by decide), h5]

/-- Second call of the examples for `n = 2`, `ns = 2`. -/
theorem example_call_two (hash_string : String → Nat) (hash_size : Nat → Nat) (inexact : ℚ → Dbl) (pick c : Nat) :
    run_iteration hash_string hash_size inexact pick (example_draws c) (example_draws c)
      [([1, -1, 1, -1], 1), ([1, 1, -1, -1], 1)] 2 2 false
      = some ((Dbl.fin 0, 4), [([1, -1, 1, -1], 2), ([1, 1, -1, -1], 2)]) := by
  have h2 : table_fold_all (symbols_hash hash_string hash_size)
      [([1, -1, 1, -1], 1), ([1, 1, -1, -1], 1)]
      [[1, 1, -1, -1], [1, -1, 1, -1]] = some [([1, -1, 1, -1], 2), ([1, 1, -1, -1], 2)] := by
    rw [table_fold_all_nonempty hash_string hash_size _ _ (by decide)]
    decide
  have h3 := iterate_vals_const pick [([1, -1, 1, -1], 2), ([1, 1, -1, -1], 2)] 2 (by decide)
  have h5 : stddev inexact ((List.replicate
      ([([1, -1, 1, -1], 2), ([1, 1, -1, -1], 2)] : Table).length (2 : Int)).map
      (fun (v : Int) => Dbl.div (Dbl.of_int v) (Dbl.of_int 4))) = Dbl.fin 0 := by
    rw [stddev_of_exact inexact (fun _ => Dbl.nan) _ (by decide!)]
    decide!
  rw [run_iteration_eq hash_string hash_size inexact pick _ _ _ 2 2 false _ _ _ 4
    (example_batch_two c) h2 h3 (by decide), h5]

/-- Only call of the examples for `n = 1`, `ns = 3` on an empty table. -/
theorem example_call_single (hash_string : String → Nat) (hash_size : Nat → Nat)
    (inexact : ℚ → Dbl) (pick c : Nat) :
    run_iteration hash_string hash_size inexact pick (example_draws c) (example_draws c) [] 1 3 false
      = some ((Dbl.nan, 3), [([1, -1], 3)]) := by
  have h2 : table_fold_all (symbols_hash hash_string hash_size) []
      [[1, -1], [1, -1], [1, -1]] = some [([1, -1], 3)] := by
    rw [table_fold_all_nonempty hash_string hash_size _ _ (by decide)]
    decide
  have h3 := iterate_vals_const pick [([1, -1], 3)] 3 (by decide)
  have h5 : stddev inexact ((List.replicate ([([1, -1], 3)] : Table).length (3 : Int)).map
      (fun (v : Int) => Dbl.div (Dbl.of_int v) (Dbl.of_int 3))) = Dbl.nan := by
    rw [stddev_of_exact inexact (fun _ => Dbl.nan) _ (by decide!)]
    decide!
  rw [run_iteration_eq hash_string hash_size inexact pick _ _ [] 1 3 false _ _ _ 3
    (example_batch_one c) h2 h3 (by decide), h5]

/-- One pass of the loop of `run_to_convergence` once the call of `run_iteration` is
known. -/
theorem convergence_loop_step (hash_string : String → Nat) (hash_size : Nat → Nat)
    (inexact : ℚ → Dbl) (pick : Nat → Nat) (uniform binomial : Nat → Nat → Nat → Nat) (n ns : Nat) (eps : Dbl)
    (max_iters : Nat) (bias : Bool) (fuel : Nat) (table : Table) (iters calls : Nat)
    (sdev : Dbl) (nsyms : Int) (table1 : Table)
    (h : run_iteration hash_string hash_size inexact (pick calls) (uniform calls)
      (binomial calls) table n ns bias = some ((sdev, nsyms), table1)) :
    convergence_loop hash_string hash_size inexact pick uniform binomial n ns eps max_iters
      bias (fuel + 1) table iters calls
      = if iters + 1 + 1 > max_iters then some ⟨Outcome.thrown, table1, calls + 1⟩
        else if Dbl.gt sdev (threshold eps table1) || decide (iters + 1 + 1 < n * 2) then
          convergence_loop hash_string hash_size inexact pick uniform binomial n ns eps
            max_iters bias fuel table1 (iters + 1 + 1) (calls + 1)
        else some ⟨Outcome.returned sdev nsyms, table1, calls + 1⟩ := by
  simp only [convergence_loop, h]

/-- C11 (exit conditions of `run_to_convergence`), evaluated at `n = 2`, `ns = 2`,
`eps = 0.1`, `max_iters = 1024` on an empty table, with draws that give one
`1,1,-1,-1` and one `1,-1,1,-1` in every batch: the standard deviation is `0` in every
batch, and the run returns after `2` calls of `run_iteration`, fewer than `2 * n = 4`,
because `iters` is incremented twice per pass. -/
theorem run_to_convergence_two_calls (hash_string : String → Nat) (hash_size : Nat → Nat)
    (inexact : ℚ → Dbl) (pick : Nat → Nat) :
    run_to_convergence hash_string hash_size inexact pick example_draws example_draws [] 2 2
      (round64 (1 / 10)) 1024 false
      = some ⟨Outcome.returned (Dbl.fin 0) 4, [([1, -1, 1, -1], 2), ([1, 1, -1, -1], 2)], 2⟩ := by
  have hthr : Dbl.gt (Dbl.fin 0)
      (threshold (round64 (1 / 10)) [([1, -1, 1, -1], 2), ([1, 1, -1, -1], 2)]) = false := by
    decide!
  unfold run_to_convergence
  rw [convergence_loop_step _ _ _ _ _ _ _ _ _ _ _ 1024 _ _ _ _ _ _
    (example_call_one hash_string hash_size inexact (pick 0) 0)]
  rw [if_neg (by decide), if_pos (by simp)]
  rw [convergence_loop_step _ _ _ _ _ _ _ _ _ _ _ 1023 _ _ _ _ _ _
    (example_call_two hash_string hash_size inexact (pick 1) 1)]
  rw [if_neg (by decide), if_neg (by rw [hthr]; decide)]


/-- C12 (when `run_to_convergence` throws), evaluated at `n = 2`, `ns = 2`, `eps = 0.1`
on an empty table with the same draws. With `max_iters = 3` the run throws after `2`
calls, which do not exceed `max_iters`; with `max_iters = 5` it returns the pair of
batch `2`, total `4`, not that of batch `4`. -/
theorem run_to_convergence_budget (hash_string : String → Nat) (hash_size : Nat → Nat)
    (inexact : ℚ → Dbl) (pick : Nat → Nat) :
    run_to_convergence hash_string hash_size inexact pick example_draws example_draws [] 2 2
      (round64 (1 / 10)) 3 false
      = some ⟨Outcome.thrown, [([1, -1, 1, -1], 2), ([1, 1, -1, -1], 2)], 2⟩ ∧
    run_to_convergence hash_string hash_size inexact pick example_draws example_draws [] 2 2
      (round64 (1 / 10)) 5 false
      = some ⟨Outcome.returned (Dbl.fin 0) 4, [([1, -1, 1, -1], 2), ([1, 1, -1, -1], 2)], 2⟩ := by
  have hthr : Dbl.gt (Dbl.fin 0)
      (threshold (round64 (1 / 10)) [([1, -1, 1, -1], 2), ([1, 1, -1, -1], 2)]) = false := by
    decide!
  constructor
  · unfold run_to_convergence
    rw [convergence_loop_step _ _ _ _ _ _ _ _ _ _ _ 3 _ _ _ _ _ _
      (example_call_one hash_string hash_size inexact (pick 0) 0)]
    rw [if_neg (by decide), if_pos (by simp)]
    rw [convergence_loop_step _ _ _ _ _ _ _ _ _ _ _ 2 _ _ _ _ _ _
      (example_call_two hash_string hash_size inexact (pick 1) 1)]
    rw [if_pos (by decide)]
  · unfold run_to_convergence
    rw [convergence_loop_step _ _ _ _ _ _ _ _ _ _ _ 5 _ _ _ _ _ _
      (example_call_one hash_string hash_size inexact (pick 0) 0)]
    rw [if_neg (by decide), if_pos (by simp)]
    rw [convergence_loop_step _ _ _ _ _ _ _ _ _ _ _ 4 _ _ _ _ _ _
      (example_call_two hash_string hash_size inexact (pick 1) 1)]
    rw [if_neg (by decide), if_neg (by rw [hthr]; decide)]

/-- The standard deviation of a single double is not-a-number: the sum of the squared
differences is divided by `size() - 1 = 0`. -/
theorem stddev_singleton (inexact : ℚ → Dbl) (x : ℚ) (hx : round64 x = Dbl.fin x) :
    stddev inexact [Dbl.fin x] = Dbl.nan := by
  have h0 : round64 0 = Dbl.fin 0 := by decide!
  have h1 : Dbl.of_int ((1 : Nat) : Int) = Dbl.fin 1 := by decide!
  have hz : Dbl.of_int (((2 ^ 64 - 1 + 1) % 2 ^ 64 : Nat) : Int) = Dbl.fin 0 := by decide!
  have hsum : accumulate [Dbl.fin x] = Dbl.fin x := by
    simp only [accumulate, List.foldl_cons, List.foldl_nil, Dbl.add, zero_add, hx]
  have hmean : Dbl.div (Dbl.fin x) (Dbl.fin 1) = Dbl.fin x := by
    simp only [Dbl.div, one_ne_zero, if_false, div_one, hx]
  have hdiff : Dbl.sub (Dbl.fin x) (Dbl.fin x) = Dbl.fin 0 := by
    simp only [Dbl.sub, Dbl.neg, Dbl.add, add_neg_cancel, h0]
  have hsq : Dbl.pow_two inexact (Dbl.fin 0) = Dbl.fin 0 := by
    simp only [Dbl.pow_two, mul_zero, h0, if_true]
  have hsum2 : accumulate [Dbl.fin 0] = Dbl.fin 0 := by
    simp only [accumulate, List.foldl_cons, List.foldl_nil, Dbl.add, zero_add, h0]
  have hv : variance inexact [Dbl.fin x] = Dbl.nan := by
    simp only [variance, List.length_cons, List.length_nil, List.map_cons, List.map_nil,
      Nat.zero_add, hsum, h1, hmean, hdiff, hsq, hsum2, hz]
    rfl
  rw [stddev, hv]
  rfl

/-- C13 (fewer than two data points), evaluated at `n = 1`, `ns = 3`, `eps = 0.1`,
`max_iters = 1024` on an empty table: the standard deviation of a single value is
not-a-number, the comparison `sdev > threshold` is then `false`, and the run returns
after its first call with a table of one entry. -/
theorem run_to_convergence_single_entry (hash_string : String → Nat) (hash_size : Nat → Nat)
    (inexact : ℚ → Dbl) (pick : Nat → Nat) :
    (∀ x : ℚ, round64 x = Dbl.fin x → stddev inexact [Dbl.fin x] = Dbl.nan) ∧
    stddev inexact [Dbl.pinf] = Dbl.nan ∧ stddev inexact [Dbl.ninf] = Dbl.nan ∧
    stddev inexact [Dbl.nan] = Dbl.nan ∧
    (∀ b : Dbl, Dbl.gt Dbl.nan b = false) ∧
    run_to_convergence hash_string hash_size inexact pick example_draws example_draws [] 1 3
      (round64 (1 / 10)) 1024 false
      = some ⟨Outcome.returned Dbl.nan 3, [([1, -1], 3)], 1⟩ := by
  have hs : ∀ d : Dbl, Dbl.square_exact (Dbl.sub d (Dbl.div (accumulate [d])
      (Dbl.of_int (([d] : List Dbl).length : Int)))) = true →
      stddev inexact [d] = stddev (fun _ => Dbl.nan) [d] := by
    intro d hd
    apply stddev_of_exact
    simp only [List.all_cons, List.all_nil, Bool.and_true]
    exact hd
  refine ⟨stddev_singleton inexact, ?_, ?_, ?_, gt_nan_left, ?_⟩
  · rw [hs Dbl.pinf (by decide!)]
    decide!
  · rw [hs Dbl.ninf (by decide!)]
    decide!
  · rw [hs Dbl.nan (by decide!)]
    decide!
  unfold run_to_convergence
  rw [convergence_loop_step _ _ _ _ _ _ _ _ _ _ _ 1024 _ _ _ _ _ _
    (example_call_single hash_string hash_size inexact (pick 0) 0)]
  rw [if_neg (by decide), if_neg (by rw [gt_nan_left]; decide)]

/-- C15 (command-line arguments), for any behaviour of the two library parsers: with
four arguments `a1 a2 a3 a4` the run takes `n`, `nsyms` and `maxiters` from `a1`, `a2`
and `a3`, and takes `eps` from `a3` again (`std::stod(argv[3])`), never from `a4`; with
no argument it keeps the defaults `4`, `65536`, `1024` and `0.1`; with five arguments
or more it ends with exit status `1`. -/
theorem parse_args_spec (stoul : String → Option Nat) (stod : String → Option Dbl)
    (a0 a1 a2 a3 a4 a5 : String) (rest : List String) :
    parse_args stoul stod [a0, a1, a2, a3, a4] =
      (match stoul a1, stoul a2, stoul a3, stod a3 with
        | some n, some nsyms, some maxi, some eps => Except.ok ⟨n, nsyms, maxi, eps⟩
        | _, _, _, _ => Except.error 1) ∧
    parse_args stoul stod [a0] = Except.ok ⟨4, 65536, 1024, round64 (1 / 10)⟩ ∧
    parse_args stoul stod (a0 :: a1 :: a2 :: a3 :: a4 :: a5 :: rest) = Except.error 1 := by
  refine ⟨?_, ?_, ?_⟩
  · simp only [parse_args, List.length_cons, List.length_nil, List.getD_cons_succ,
      List.getD_cons_zero]
    cases stoul a1 <;> cases stoul a2 <;> cases stoul a3 <;> cases stod a3 <;> simp
  · simp [parse_args]
  · simp only [parse_args, List.length_cons, List.getD_cons_succ, List.getD_cons_zero]
    cases stoul a1 <;> cases stoul a2 <;> cases stoul a3 <;> cases stod a3 <;> simp

end Lab4
